import Mathlib

/-!
Verification of the retrieval-and-generation orchestration core of the
RAG-System repository (TypeScript sources under `src/`).

The development shallowly embeds the relevant TypeScript functions as
executable Lean definitions:

* numbers produced by fractional JavaScript arithmetic are modelled as `ℚ`
  (all constants involved — 0.25, 1.25, 0.1, 0.3, 0.5, 0.8, 1.5, 2.5 — are
  exactly representable IEEE doubles, so `ℚ` arithmetic agrees with the
  JavaScript evaluation on the magnitudes that occur here);
* counts, token totals and indices are `ℕ`;
* string processing (`toLowerCase`, `trim`, `includes`, `split`) is
  re-implemented over `List Char` with ECMAScript semantics (for ASCII
  input, which is what every concrete theorem below uses);
* the external embedding service composed with `cosineSimilarity` (a real
  valued function of two stored vectors) is abstracted as a similarity
  oracle `sim : EmbeddedChunk → ℚ` passed to the retrieval functions: none
  of the verified properties depend on the numeric similarity values;
* the external `js-tiktoken` encoder used by `estimateTokens` is modelled
  by its own documented fallback `ceil(length / 4)` (the code falls back to
  exactly that expression when the encoder is unavailable); the verified
  properties depend only on the same measure being used consistently;
* ECMAScript `Array.prototype.sort` with a consistent comparator is a
  stable sort, whose result is uniquely determined by the comparator and
  the input order; it is modelled by a stable insertion sort `jsSort`.
-/

namespace RagModel

/-! ## ECMAScript string primitives over `List Char` -/

/-- ECMAScript `\s` (the whitespace characters relevant to the sources). -/
def isJsSpace (c : Char) : Bool :=
  c = ' ' || c = '\t' || c = '\n' || c = '\r' || c = '\x0b' || c = '\x0c'

/-- ECMAScript `\w`: ASCII letters, digits and underscore. -/
def isWordChar (c : Char) : Bool :=
  c.isAlphanum || c = '_'

/-- `String.prototype.toLowerCase` (ASCII range; other characters are kept,
which agrees with JavaScript on the ASCII inputs used in the theorems). -/
def jsToLower (s : String) : String :=
  ⟨s.data.map Char.toLower⟩

/-- `String.prototype.trim`. -/
def jsTrim (s : String) : String :=
  ⟨((s.data.dropWhile isJsSpace).reverse.dropWhile isJsSpace).reverse⟩

/-- Substring occurrence test on character lists (needle occurs in hay). -/
def listContainsSeq : List Char → List Char → Bool
  | hay, needle =>
    needle.isPrefixOf hay ||
      match hay with
      | [] => false
      | _ :: t => listContainsSeq t needle

/-- `String.prototype.includes`. -/
def strContains (hay needle : String) : Bool :=
  listContainsSeq hay.data needle.data

/-- `hay.toLowerCase().includes(needle)` — the pervasive idiom of the sources. -/
def lowerContains (hay needle : String) : Bool :=
  strContains (jsToLower hay) needle

/-- `s.split(/\s+/)` on character lists.  A separator is a maximal nonempty
whitespace run; a leading or trailing run contributes an empty piece,
exactly as in ECMAScript (`" a ".split(/\s+/)` is `["", "a", ""]`). -/
def splitWsChars : List Char → List (List Char)
  | [] => [[]]
  | c :: rest =>
    let r := splitWsChars rest
    if isJsSpace c then
      match rest with
      | [] => [[], []]
      | d :: _ => if isJsSpace d then r else [] :: r
    else
      match r with
      | p :: ps => (c :: p) :: ps
      | [] => [[c]]

/-- `s.split(/\s+/)` as strings. -/
def jsSplitWs (s : String) : List String :=
  (splitWsChars s.data).map (fun l => ⟨l⟩)

/-- Digit run to number, as `parseInt` on a captured `(\d+)` group. -/
def digitsToNat (ds : List Char) : ℕ :=
  ds.foldl (fun n c => n * 10 + (c.toNat - '0'.toNat)) 0

/-! ## Word-boundary match counting

`new RegExp('\\b' + kw + '\\b', 'gi').exec` driven counting, for keywords
made of word characters (the shape `normalizeKeywords` produces from
alphanumeric titles).  For such keywords two `\b`-delimited occurrences can
never overlap, so the `g`-flag count equals the number of positions at
which the keyword occurs with non-word (or absent) neighbours on both
sides. -/

/-- Does `kw` occur at the current position with word boundaries on both
sides?  `prev` is the character before the position, if any. -/
def wbHitAt (kw : List Char) (prev : Option Char) (l : List Char) : Bool :=
  kw.isPrefixOf l
    && (match prev with | none => true | some p => !isWordChar p)
    && (match l.drop kw.length with | [] => true | d :: _ => !isWordChar d)

def countWBGo (kw : List Char) (prev : Option Char) : List Char → ℕ
  | [] => 0
  | c :: rest =>
    (if wbHitAt kw prev (c :: rest) then 1 else 0) + countWBGo kw (some c) rest

/-- Number of `\b kw \b` matches of a (lower-cased, word-character) keyword
in a (lower-cased) text. -/
def countWB (kw text : String) : ℕ :=
  countWBGo kw.data none text.data

/-! ## Stable sort (ECMAScript `Array.prototype.sort`)

For a consistent comparator, `Array.prototype.sort` is specified to be
stable and its result is the unique stable order by the comparator.  It is
modelled by insertion sort: `le x y = true` means "`x` may stay before
`y`"; on ties the earlier element stays first. -/

def jsInsert (le : α → α → Bool) (x : α) : List α → List α
  | [] => [x]
  | y :: ys => if le y x then y :: jsInsert le x ys else x :: y :: ys

/-- Stable sort by a boolean total preorder. -/
def jsSort (le : α → α → Bool) (l : List α) : List α :=
  l.foldl (fun acc x => jsInsert le x acc) []

theorem mem_jsInsert {le : α → α → Bool} {x z : α} {l : List α} :
    z ∈ jsInsert le x l ↔ z = x ∨ z ∈ l := by
  induction l with
  | nil => simp [jsInsert]
  | cons y ys ih =>
    by_cases h : le y x = true
    · simp [jsInsert, h, ih]
      try tauto
    · simp [jsInsert, h]
      try tauto

theorem pairwise_jsInsert {le : α → α → Bool}
    (htrans : ∀ a b c, le a b = true → le b c = true → le a c = true)
    (htotal : ∀ a b, le a b = true ∨ le b a = true)
    {x : α} {l : List α} (h : l.Pairwise (fun a b => le a b = true)) :
    (jsInsert le x l).Pairwise (fun a b => le a b = true) := by
  induction l with
  | nil => simp [jsInsert]
  | cons y ys ih =>
    rcases List.pairwise_cons.mp h with ⟨hy, hys⟩
    by_cases hle : le y x = true
    · have : (jsInsert le x ys).Pairwise (fun a b => le a b = true) := ih hys
      simp only [jsInsert, hle, if_true]
      refine List.pairwise_cons.mpr ⟨?_, this⟩
      intro z hz
      rcases mem_jsInsert.mp hz with rfl | hz
      · exact hle
      · exact hy z hz
    · have hxy : le x y = true := by
        rcases htotal x y with h1 | h1
        · exact h1
        · exact absurd h1 hle
      simp only [jsInsert, hle, if_false]
      refine List.pairwise_cons.mpr ⟨?_, h⟩
      intro z hz
      rcases List.mem_cons.mp hz with rfl | hz
      · exact hxy
      · exact htrans x y z hxy (hy z hz)

theorem mem_jsSortAux {le : α → α → Bool} {z : α} (l acc : List α) :
    z ∈ l.foldl (fun acc x => jsInsert le x acc) acc ↔ z ∈ acc ∨ z ∈ l := by
  induction l generalizing acc with
  | nil => simp
  | cons x xs ih =>
    simp only [List.foldl_cons, ih, mem_jsInsert, List.mem_cons]
    tauto

theorem mem_jsSort {le : α → α → Bool} {z : α} {l : List α} :
    z ∈ jsSort le l ↔ z ∈ l := by
  unfold jsSort
  rw [mem_jsSortAux]
  simp

theorem pairwise_jsSortAux {le : α → α → Bool}
    (htrans : ∀ a b c, le a b = true → le b c = true → le a c = true)
    (htotal : ∀ a b, le a b = true ∨ le b a = true)
    (l : List α) (acc : List α)
    (hacc : acc.Pairwise (fun a b => le a b = true)) :
    (l.foldl (fun acc x => jsInsert le x acc) acc).Pairwise
      (fun a b => le a b = true) := by
  induction l generalizing acc with
  | nil => simpa using hacc
  | cons x xs ih =>
    exact ih _ (pairwise_jsInsert htrans htotal hacc)

theorem pairwise_jsSort {le : α → α → Bool}
    (htrans : ∀ a b c, le a b = true → le b c = true → le a c = true)
    (htotal : ∀ a b, le a b = true ∨ le b a = true)
    (l : List α) :
    (jsSort le l).Pairwise (fun a b => le a b = true) :=
  pairwise_jsSortAux htrans htotal l [] (by simp)

theorem length_jsInsert {le : α → α → Bool} (x : α) (l : List α) :
    (jsInsert le x l).length = l.length + 1 := by
  induction l with
  | nil => rfl
  | cons y ys ih =>
    by_cases h : le y x = true <;> simp [jsInsert, h, ih]

theorem length_jsSortAux {le : α → α → Bool} (l acc : List α) :
    (l.foldl (fun acc x => jsInsert le x acc) acc).length
      = acc.length + l.length := by
  induction l generalizing acc with
  | nil => simp
  | cons x xs ih =>
    simp only [List.foldl_cons, ih, length_jsInsert, List.length_cons]
    omega

theorem length_jsSort {le : α → α → Bool} (l : List α) :
    (jsSort le l).length = l.length := by
  unfold jsSort
  rw [length_jsSortAux]
  simp

/-! ## Data model (`src/lib/embeddings.ts`, `src/lib/documentProcessor.ts`,
`src/types/research.ts`) -/

inductive SectionType
  | page
  | paragraph
  | sheet
  | line
deriving DecidableEq

/-- `EmbeddedChunk.metadata.hierarchy` (Hierarchical Structure Preservation). -/
structure Hierarchy where
  documentTitle : Option String
  parentSection : Option String
  belongsTo : List String
  nearbyHeadings : List String
  structuralContext : String
deriving DecidableEq

/-- `EmbeddedChunk.metadata`.  The interface declares `hierarchy` as
required, but `scoreChunksForPart` guards against its absence at runtime
(legacy stored data), hence the `Option`. -/
structure ChunkMetadata where
  filename : String
  sectionNumber : ℕ
  sectionType : SectionType
  tokens : ℕ
  hierarchy : Option Hierarchy
deriving DecidableEq

/-- An embedded text fragment (`EmbeddedChunk`).  The embedding vector is
carried as data but the similarity to a query embedding is abstracted by
an oracle, see the module docstring. -/
structure EmbeddedChunk where
  id : String
  content : String
  embedding : List ℚ
  metadata : ChunkMetadata
deriving DecidableEq

structure FullPage where
  pageNumber : ℕ
  fullContent : String
  tokens : ℕ
  filename : String
deriving DecidableEq

structure StoredDocument where
  id : String
  filename : String
  chunks : List EmbeddedChunk
  fullPages : List FullPage
  createdAt : String
deriving DecidableEq

/-- `src/types/research.ts` `LengthRequest`. -/
structure LengthRequest where
  parts : Option ℕ
  tokensPerPart : Option ℕ
  explicitParts : Option Bool
  explicitTokens : Option Bool
deriving DecidableEq

/-- `src/types/research.ts` `PartPlan`. -/
structure PartPlan where
  index : ℕ
  title : String
  tokens : ℕ
  keywords : List String
deriving DecidableEq

/-- `src/types/research.ts` `ReportPlan`. -/
structure ReportPlan where
  topic : String
  length : LengthRequest
  parts : List PartPlan
deriving DecidableEq

/-! ## `src/services/reportPlanner.ts` -/

def INTRO_KEYWORDS : List String := ["introduction", "введение", "overview"]

def CONCLUSION_KEYWORDS : List String :=
  ["conclusion", "summary", "вывод", "заключение", "recommendations"]

/-- Match `^\d+[\.)]\s*(.+)$` against an (already trimmed) line and return
the captured group trimmed; `null` when the line does not match or the
trimmed capture is empty (such entries are dropped by `filter(Boolean)`). -/
def parseNumberedLine (line : String) : Option String :=
  let l := line.data
  let ds := l.takeWhile Char.isDigit
  if ds.isEmpty then none
  else
    match l.drop ds.length with
    | [] => none
    | c :: rest =>
      if c = '.' || c = ')' then
        let t := jsTrim ⟨rest⟩
        if t = "" then none else some t
      else none

/-- Match `^[\-*•]\s*(.+)$` analogously. -/
def parseBulletLine (line : String) : Option String :=
  match line.data with
  | [] => none
  | c :: rest =>
    if c = '-' || c = '*' || c = '•' then
      let t := jsTrim ⟨rest⟩
      if t = "" then none else some t
    else none

/-- Split a request into trimmed nonempty lines (`split(/\r?\n/)`, trim,
`filter(Boolean)`).  Splitting on `'\n'` and trimming each piece absorbs a
preceding `'\r'`, which `jsTrim` removes. -/
def requestLines (request : String) : List String :=
  (((request.data.splitOn '\n').map (fun l => jsTrim ⟨l⟩)).filter (fun s => s ≠ ""))

/-- `detectExplicitParts`. -/
def detectExplicitParts (request : String) : List String :=
  let lines := requestLines request
  let numbered := lines.filterMap parseNumberedLine
  if 3 ≤ numbered.length then numbered
  else
    let bullet := lines.filterMap parseBulletLine
    if 3 ≤ bullet.length then bullet else []

/-- Separator class of `normalizeKeywords`: `[,;:\/\-\s]+`. -/
def isKwSep (c : Char) : Bool :=
  c = ',' || c = ';' || c = ':' || c = '/' || c = '-' || isJsSpace c

def splitSepChars : List Char → List (List Char)
  | [] => [[]]
  | c :: rest =>
    let r := splitSepChars rest
    if isKwSep c then
      match rest with
      | [] => [[], []]
      | d :: _ => if isKwSep d then r else [] :: r
    else
      match r with
      | p :: ps => (c :: p) :: ps
      | [] => [[c]]

/-- `normalizeKeywords`: lower-case, split on the separator class, drop
empties (the per-piece `trim` is a no-op because whitespace is part of the
separator class). -/
def normalizeKeywords (title : String) : List String :=
  ((splitSepChars (jsToLower title).data).map (fun l => (⟨l⟩ : String))).filter
    (fun s => s ≠ "")

def defaultTitles : List String :=
  [ "Introduction",
    "Regulatory framework and licensing",
    "Tax incentives and financial conditions",
    "Logistics and operational processes",
    "Risk management and compliance",
    "Business models and partnerships",
    "Conclusions and strategic recommendations" ]

/-- `length.parts ?? (explicitParts.length || 7)` (read with the
parenthesisation the surrounding code relies on: the engine always passes
`length.parts`). -/
def requestedPartsOf (request : String) (len : LengthRequest) : ℕ :=
  match len.parts with
  | some p => p
  | none =>
    let e := (detectExplicitParts request).length
    if e = 0 then 7 else e

/-- Does some title of the list match the keyword set
(`title.toLowerCase().includes(keyword)`)? -/
def titleMatchesAny (kws : List String) (title : String) : Bool :=
  kws.any (fun k => lowerContains title k)

/-- The initial `baseTopics` array, before intro/conclusion post-processing. -/
def planBaseTopics (request : String) (len : LengthRequest) (requested : ℕ) :
    List PartPlan :=
  let explicit := detectExplicitParts request
  if explicit.isEmpty then
    (List.range requested).map (fun i =>
      let title := (defaultTitles.getD i ("Section " ++ toString (i + 1)))
      let keywords := normalizeKeywords title
      { index := i + 1
        title := title
        tokens := len.tokensPerPart.getD 1100
        keywords := if keywords.length = 0 then ["part-" ++ toString (i + 1)] else keywords })
  else
    (explicit.take requested).enum.map (fun p =>
      { index := p.1 + 1
        title := p.2
        tokens := len.tokensPerPart.getD 1100
        keywords := normalizeKeywords p.2 })

/-- The final re-indexing `.map((part, idx) => ({...part, index: idx + 1}))`
(started at 1). -/
def reindexFrom : ℕ → List PartPlan → List PartPlan
  | _, [] => []
  | i, p :: rest => { p with index := i } :: reindexFrom (i + 1) rest

def introPartPlan (len : LengthRequest) : PartPlan :=
  { index := 1
    title := "Introduction"
    tokens := len.tokensPerPart.getD 1100
    keywords := ["introduction", "overview"] }

def conclusionPartPlan (len : LengthRequest) (n : ℕ) : PartPlan :=
  { index := n
    title := "Conclusions and recommendations"
    tokens := len.tokensPerPart.getD 1100
    keywords := ["conclusion", "summary", "recommendations"] }

/-- The intro/conclusion post-processing of `planReport`: prepend an
Introduction part when no title matches the intro-keyword set, then append
a Conclusions part when no title matches the conclusion-keyword set. -/
def withIntroConclusion (len : LengthRequest) (base1 : List PartPlan) :
    List PartPlan :=
  let base2 :=
    if base1.any (fun p => titleMatchesAny INTRO_KEYWORDS p.title) then base1
    else introPartPlan len :: base1
  if base2.any (fun p => titleMatchesAny CONCLUSION_KEYWORDS p.title) then base2
  else base2 ++ [conclusionPartPlan len (base2.length + 1)]

/-- `planReport` (`src/services/reportPlanner.ts`). -/
def planReport (request : String) (len : LengthRequest) : ReportPlan :=
  let requested := requestedPartsOf request len
  { topic := request
    length := len
    parts := reindexFrom 1
      ((withIntroConclusion len (planBaseTopics request len requested)).take requested) }

/-! ## `src/services/partPlanning.ts` — `scoreChunksForPart`

The scorer builds `new RegExp('\\b' + keyword + '\\b', 'gi')` from each
lower-cased keyword.  ECMA-262 `RegExp` compilation throws a `SyntaxError`
for interpolations such as `c++` (a quantifier with nothing to repeat).
The embedding's supported domain is keywords that are nonempty runs of
word characters: such keywords always compile, and their `g`-flag match
count is `countWB`.  Keywords outside this domain (empty, or containing
regex metacharacters — whether or not they would compile in JavaScript)
are conservatively routed to the error branch; every concrete theorem
below stays inside the faithful overlap (plain word keywords, and the
keyword `c++` on which JavaScript does throw). -/

/-- The keyword shapes whose `\b…\b` pattern the embedding models exactly. -/
def wordCharKeyword (kw : String) : Bool :=
  !kw.data.isEmpty && kw.data.all isWordChar

/-- `semanticMap` of `extractSemanticWords` (entry order is the object
literal order, which `Object.entries` preserves). -/
def semanticMap : List (String × List String) :=
  [ ("introduction", ["overview", "background", "purpose", "scope"]),
    ("regulatory", ["law", "legal", "compliance", "rules", "regulation"]),
    ("tax", ["taxation", "fiscal", "revenue", "deduction", "exemption"]),
    ("logistics", ["supply", "transport", "delivery", "warehouse", "distribution"]),
    ("risk", ["security", "threat", "vulnerability", "mitigation", "assessment"]),
    ("business", ["commercial", "enterprise", "company", "organization"]),
    ("conclusion", ["result", "finding", "outcome", "recommendation", "summary"]) ]

def extractSemanticWords (title : String) : List String :=
  let titleLower := jsToLower title
  (semanticMap.filter (fun e => strContains titleLower e.1)).flatMap (fun e => e.2)

/-- `calculateContextRelevance` (text and keywords arrive lower-cased). -/
def calculateContextRelevance (text : String) (keywords : List String)
    (title : String) : ℚ :=
  let totalWords := (splitWsChars text.data).length
  let keywordDensity := (keywords.map (fun kw => countWB kw text)).sum
  let density : ℚ := (keywordDensity : ℚ) / ((max totalWords 1 : ℕ) : ℚ)
  let base : ℚ := min 1 (density * 100)
  let semanticWords := extractSemanticWords title
  let withSem := base
    + ((semanticWords.filter (fun w => strContains text w)).length : ℚ) * (3/10)
  min 2 withSem

/-- `calculateStructuralPositionBonus`. -/
def calculateStructuralPositionBonus (structuralContext : String)
    (part : PartPlan) : ℚ :=
  let context := jsToLower structuralContext
  let partTitle := jsToLower part.title
  if strContains partTitle "introduction" && strContains context "beginning" then 3/2
  else if (strContains partTitle "conclusion" || strContains partTitle "recommendation")
      && strContains context "end" then 3/2
  else if strContains context "middle" && !strContains partTitle "introduction"
      && !strContains partTitle "conclusion" then 1/2
  else 0

/-- The `conflictingTopics` table of `calculateStructuralPenalty`. -/
def conflictingTopics : List (List String × List String) :=
  [ (["tax", "налог"], ["logistics", "логистика", "risk", "риск"]),
    (["logistics", "логистика"], ["tax", "налог", "regulatory", "нормативн"]),
    (["risk", "риск"], ["tax", "налог", "business", "бизнес"]),
    (["regulatory", "нормативн"], ["logistics", "логистика"]) ]

/-- `calculateStructuralPenalty`. -/
def calculateStructuralPenalty (h : Hierarchy) (part : PartPlan) : ℚ :=
  let partTitleLower := jsToLower part.title
  let allHierarchyText := jsToLower
    (String.intercalate " " (h.belongsTo ++ h.nearbyHeadings ++ [h.parentSection.getD ""]))
  ((conflictingTopics.filter (fun conf =>
      conf.1.any (fun kw => strContains partTitleLower kw)
        && conf.2.any (fun t => strContains allHierarchyText t))).length : ℚ) * 2

/-- `calculateHierarchyRelevance` (the runtime `!chunk.metadata.hierarchy`
guard is the `none` branch; `some ""` for `parentSection` is falsy in
JavaScript, hence the emptiness test). -/
def calculateHierarchyRelevance (chunk : EmbeddedChunk) (part : PartPlan)
    (keywords : List String) : ℚ :=
  match chunk.metadata.hierarchy with
  | none => 0
  | some h =>
    let partTitleWords := jsSplitWs (jsToLower part.title)
    let s1 : ℚ := (h.nearbyHeadings.map (fun heading =>
        let hl := jsToLower heading
        ((keywords.filter (fun kw => strContains hl kw)).length : ℚ) * 3
          + ((partTitleWords.filter
                (fun w => decide (2 < w.data.length) && strContains hl w)).length : ℚ) * 2)).sum
    let s2 : ℚ := (h.belongsTo.enum.map (fun pe =>
        let pl := jsToLower pe.2
        ((keywords.filter (fun kw => strContains pl kw)).length : ℚ)
          * max (1/2) (2 - (pe.1 : ℚ) * (3/10)))).sum
    let s3 : ℚ :=
      match h.parentSection with
      | none => 0
      | some ps =>
        if ps = "" then 0
        else ((keywords.filter (fun kw => strContains (jsToLower ps) kw)).length : ℚ) * (5/2)
    let s4 := calculateStructuralPositionBonus h.structuralContext part
    let s5 := calculateStructuralPenalty h part
    min 5 (s1 + s2 + s3 + s4 - s5)

/-- One scored entry of `scoreChunksForPart`'s `scored` array. -/
structure ScoredChunk where
  chunk : EmbeddedChunk
  score : ℚ
  exactMatches : ℕ
deriving DecidableEq

/-- The per-chunk body of `chunks.map(...)` inside `scoreChunksForPart`. -/
def scoreEntry (part : PartPlan) (chunk : EmbeddedChunk) : ScoredChunk :=
  let keywords := part.keywords.map jsToLower
  let title := jsToLower part.title
  let text := jsToLower chunk.content
  let exactMatches := (keywords.map (fun kw => countWB kw text)).sum
  let score1 : ℚ := (exactMatches : ℚ) * 2
  let score2 := score1 + ((keywords.filter (fun kw => strContains text kw)).length : ℚ)
  let titleWords := (jsSplitWs title).filter (fun w => decide (2 < w.data.length))
  let score3 := score2
    + ((titleWords.filter (fun w => strContains text w)).length : ℚ) * (3/2)
  let lengthBonus : ℚ := min (1/2) ((chunk.metadata.tokens : ℚ) / 2000)
  let score4 := score3 + lengthBonus
  let score5 :=
    if chunk.metadata.tokens < 50 then score4 * (1/2)
    else if 1500 < chunk.metadata.tokens then score4 * (4/5)
    else score4
  let score6 := score5 + calculateContextRelevance text keywords title
  let score7 := score6 + calculateHierarchyRelevance chunk part keywords
  { chunk := chunk, score := max 0 score7, exactMatches := exactMatches }

/-- The sort comparator `(a, b) => exact desc, then score desc`; `scoredLe a b`
means `a` may stay before `b`, ties keep input order (stable sort). -/
def scoredLe (a b : ScoredChunk) : Bool :=
  decide (b.exactMatches < a.exactMatches)
    || (decide (a.exactMatches = b.exactMatches) && decide (b.score ≤ a.score))

/-- The relevance filter `item.score > 0.1 || item.exactMatches > 0`. -/
def keepScored (item : ScoredChunk) : Bool :=
  decide ((1 : ℚ)/10 < item.score) || decide (0 < item.exactMatches)

/-- `scoreChunksForPart`.  With an empty chunk list the `map` body never
runs, so no regex is compiled and no exception can occur; otherwise a
keyword outside the modelled compiling shapes raises (see the section
docstring). -/
def scoreChunksForPart (part : PartPlan) (chunks : List EmbeddedChunk) :
    Except String (List EmbeddedChunk) :=
  if chunks.isEmpty then .ok []
  else if (part.keywords.map jsToLower).all wordCharKeyword then
    .ok ((jsSort scoredLe ((chunks.map (scoreEntry part)).filter keepScored)).map
      (fun it => it.chunk))
  else .error "SyntaxError: Invalid regular expression"

/-- Exact word-boundary match count of a chunk against a part. -/
def chunkExactMatches (part : PartPlan) (c : EmbeddedChunk) : ℕ :=
  (scoreEntry part c).exactMatches

/-- Combined heuristic score of a chunk against a part. -/
def chunkPartScore (part : PartPlan) (c : EmbeddedChunk) : ℚ :=
  (scoreEntry part c).score

/-! ## `EmbeddingsManager` retrieval (`src/lib/embeddings.ts`)

`searchSimilar` and `findRelevantPages` first call the external embedding
service on the query text and then rank by `cosineSimilarity(queryEmbedding,
chunk.embedding)`, a real-valued function.  Both are modelled parametrically
in a similarity oracle `sim : EmbeddedChunk → ℚ`; none of the verified
properties depend on the oracle's values. -/

def allChunksOf (docs : List StoredDocument) : List EmbeddedChunk :=
  docs.flatMap (fun d => d.chunks)

/-- The `ensurePerDocument` pass: first chunk of each not-yet-seen document
goes to `primary`, the rest to `secondary`, both in sorted order. -/
def ensureDocGo : List (EmbeddedChunk × ℚ) → List String →
    List (EmbeddedChunk × ℚ) × List (EmbeddedChunk × ℚ)
  | [], _ => ([], [])
  | item :: rest, seen =>
    if seen.contains item.1.metadata.filename then
      let r := ensureDocGo rest seen
      (r.1, item :: r.2)
    else
      let r := ensureDocGo rest (item.1.metadata.filename :: seen)
      (item :: r.1, r.2)

/-- Comparator `(a, b) => b.similarity - a.similarity` (descending, stable). -/
def simLe (a b : EmbeddedChunk × ℚ) : Bool :=
  decide (b.2 ≤ a.2)

/-- The `minScore` filter predicate of `searchSimilar` (`minScore` defaults
to `Number.NEGATIVE_INFINITY`, below every similarity, modelled as
`none`). -/
def minScoreKeep (minScore : Option ℚ) (it : EmbeddedChunk × ℚ) : Bool :=
  match minScore with
  | none => true
  | some m => decide (m ≤ it.2)

/-- The scored-and-sorted candidate list of `searchSimilar`. -/
def searchPool (sim : EmbeddedChunk → ℚ) (docs : List StoredDocument)
    (minScore : Option ℚ) : List (EmbeddedChunk × ℚ) :=
  jsSort simLe
    (((allChunksOf docs).map (fun c => (c, sim c))).filter (minScoreKeep minScore))

/-- `searchSimilar(query, { topK, minScore, ensurePerDocument })`.  The
`Number.isFinite(topK)` guard always holds for the engine's calls, so the
final slice is `ordered.slice(0, Math.max(1, topK))`. -/
def searchSimilar (sim : EmbeddedChunk → ℚ) (docs : List StoredDocument)
    (topK : ℕ) (ensurePerDocument : Bool) (minScore : Option ℚ) :
    List EmbeddedChunk :=
  if (allChunksOf docs).isEmpty then []
  else
    let sorted := searchPool sim docs minScore
    if sorted.isEmpty then []
    else
      let ordered :=
        if ensurePerDocument then
          let pr := ensureDocGo sorted []
          pr.1 ++ pr.2
        else sorted
      (ordered.map (fun it => it.1)).take (max 1 topK)

/-- The `allPages` array of `findRelevantPages`: every page owning at least
one chunk (matched by `sectionNumber === pageNumber` within its document),
with the mean similarity of its chunks. -/
def pageChunkPairs (sim : EmbeddedChunk → ℚ) (docs : List StoredDocument) :
    List (FullPage × ℚ) :=
  docs.flatMap (fun d => d.fullPages.filterMap (fun page =>
    let pageChunks := d.chunks.filter
      (fun c => c.metadata.sectionNumber = page.pageNumber)
    if pageChunks.isEmpty then none
    else some (page, ((pageChunks.map sim).sum) / ((pageChunks.length : ℕ) : ℚ))))

/-- Comparator `(a, b) => b.avgSimilarity - a.avgSimilarity`. -/
def pageLe (a b : FullPage × ℚ) : Bool :=
  decide (b.2 ≤ a.2)

/-- `findRelevantPages(query, topK)`. -/
def findRelevantPages (sim : EmbeddedChunk → ℚ) (docs : List StoredDocument)
    (topK : ℕ) : List FullPage :=
  ((jsSort pageLe (pageChunkPairs sim docs)).take topK).map (fun it => it.1)

/-- The pages of the corpus that own at least one fragment — the candidate
pool of `findRelevantPages`, independently of similarities. -/
def pagesWithChunks (docs : List StoredDocument) : List FullPage :=
  docs.flatMap (fun d => d.fullPages.filter (fun page =>
    !(d.chunks.filter (fun c => c.metadata.sectionNumber = page.pageNumber)).isEmpty))

/-! ## `src/lib/ragQuery.ts` -/

def MODEL_OUTPUT_TOKEN_LIMIT : ℕ := 16000

def MODEL_CONTEXT_TOKEN_LIMIT : ℕ := 120000

def CONTEXT_SAFETY_MARGIN : ℕ := 2000

def MIN_OUTPUT_TOKENS : ℕ := 512

def DEFAULT_TOKENS_PER_PART : ℕ := 900

/-- The constant 1.25 named `DEFAULT_PART_BUFFER_` + `RATIO` in the source. -/
def defaultPartBufferRatio : ℚ := 5/4

/-- `DETAIL_KEYWORDS` (the Cyrillic literals are stored mojibake-encoded in
the repository snapshot; they decode to the strings below). -/
def DETAIL_KEYWORDS : List String :=
  [ "исслед", "analysis", "review", "доклад", "research", "обзор",
    "strategy", "стратег", "comprehensive", "подроб", "deep dive" ]

/-- `DIAGNOSTIC_KEYWORDS` (same encoding note as `DETAIL_KEYWORDS`). -/
def DIAGNOSTIC_KEYWORDS : List String :=
  [ "list files", "list documents", "show files", "какие файлы",
    "сколько файлов", "какие документы", "document summary", "document status" ]

def isDiagnosticsRequest (request : String) : Bool :=
  DIAGNOSTIC_KEYWORDS.any (fun k => lowerContains request k)

def isHighDetailRequest (question : String) : Bool :=
  DETAIL_KEYWORDS.any (fun k => lowerContains question k)

/-- The `Map`-based first-wins deduplication of `mergeChunks`. -/
def mergeDedupGo : List EmbeddedChunk → List String → List EmbeddedChunk
  | [], _ => []
  | c :: rest, seen =>
    if seen.contains c.id then mergeDedupGo rest seen
    else c :: mergeDedupGo rest (c.id :: seen)

/-- `mergeChunks`. -/
def mergeChunks (primary secondary : List EmbeddedChunk) : List EmbeddedChunk :=
  mergeDedupGo (primary ++ secondary) []

/-- `filterPagesForChunks`.  The source keys the `needed` set by the string
`filename + "-" + sectionNumber`; since the numeric component is the final
digit run of the key, pair membership is equivalent. -/
def filterPagesForChunks (pages : List FullPage) (chunks : List EmbeddedChunk) :
    List FullPage :=
  if pages.isEmpty || chunks.isEmpty then []
  else
    let needed := (chunks.filter
        (fun c => c.metadata.sectionType = SectionType.page)).map
      (fun c => (c.metadata.filename, c.metadata.sectionNumber))
    pages.filter (fun p => needed.contains (p.filename, p.pageNumber))

/-- `estimateTokens`: the external `js-tiktoken` encoder is modelled by the
function's own fallback `Math.ceil(text.length / 4)` (and `0` for the empty
string, which the formula already gives). -/
def estimateTokens (s : String) : ℕ :=
  (s.data.length + 3) / 4

/-- `chunk.metadata.tokens || estimateTokens(chunk.content)` (`0` is falsy). -/
def effChunkTokens (c : EmbeddedChunk) : ℕ :=
  if c.metadata.tokens ≠ 0 then c.metadata.tokens else estimateTokens c.content

/-- `page.tokens || estimateTokens(page.fullContent)`. -/
def effPageTokens (p : FullPage) : ℕ :=
  if p.tokens ≠ 0 then p.tokens else estimateTokens p.fullContent

structure LengthPreferences where
  parts : ℕ
  tokensPerPart : ℕ
  explicitParts : Bool
  explicitTokens : Bool
  totalRequestedTokens : ℕ
deriving DecidableEq

/-- Leftmost match of `(\d+)\s*(?:alt₁|alt₂|…)` (case-insensitively, via the
lower-cased text): at each digit position take the maximal digit run, skip
whitespace, and require some alternative as a prefix; a quantified
alternative such as `part(s)?` is expanded into its finitely many
alternative strings, whose choice does not affect the captured number. -/
def scanNumGo (alts : List String) : List Char → Option ℕ
  | [] => none
  | c :: rest =>
    if c.isDigit then
      let run := (c :: rest).takeWhile Char.isDigit
      let after := ((c :: rest).dropWhile Char.isDigit).dropWhile isJsSpace
      if alts.any (fun a => a.data.isPrefixOf after) then some (digitsToNat run)
      else scanNumGo alts rest
    else scanNumGo alts rest

def scanNumAlt (alts : List String) (s : String) : Option ℕ :=
  scanNumGo alts (jsToLower s).data

/-- Expansion of `(?:част(?:ей|и)?|раздел(?:ов|а)?|parts?|sections?)`. -/
def partsAlternatives : List String :=
  [ "частей", "части", "част", "разделов", "раздела", "раздел",
    "parts", "part", "sections", "section" ]

/-- Expansion of `(?:токен(?:ов|а)?|token(?:s)?|слов(?:а|о|ов)?|words?)`. -/
def tokensAlternatives : List String :=
  [ "токенов", "токена", "токен", "tokens", "token",
    "слова", "слово", "слов", "words", "word" ]

/-- `extractLengthPreferences`.  The `Number.isFinite(tokensPerPart)` guard
of the source can only fire for digit runs of three hundred or more digits
(`parseInt` overflowing to `Infinity`) and is therefore not modelled. -/
def extractLengthPreferences (question : String) : LengthPreferences :=
  let partsM := scanNumAlt partsAlternatives question
  let tokensM := scanNumAlt tokensAlternatives question
  let parts := match partsM with | some n => max 1 n | none => 7
  let tokensPerPart :=
    match tokensM with | some n => max 400 n | none => DEFAULT_TOKENS_PER_PART
  { parts := parts
    tokensPerPart := tokensPerPart
    explicitParts := partsM.isSome
    explicitTokens := tokensM.isSome
    totalRequestedTokens := parts * tokensPerPart }

structure RetrievalPlan where
  chunkLimit : ℕ
  pageLimit : ℕ
  maxContextTokens : ℚ
deriving DecidableEq

/-- The `highDetail` flag of `buildRetrievalPlan`. -/
def highDetailOf (question : String) (prefs : LengthPreferences) : Bool :=
  isHighDetailRequest question
    || decide (5 ≤ prefs.parts) || decide (1000 ≤ prefs.tokensPerPart)

/-- `estimatedOutput`/`availableForContext` of `buildRetrievalPlan`. -/
def availableContextTokens (prefs : LengthPreferences) : ℚ :=
  (MODEL_CONTEXT_TOKEN_LIMIT : ℚ)
    - (prefs.parts : ℚ) * (prefs.tokensPerPart : ℚ) * defaultPartBufferRatio
    - (CONTEXT_SAFETY_MARGIN : ℚ)

/-- `buildRetrievalPlan` (`manualMaxSources` is a JavaScript number whose
zero value is falsy, hence the explicit `≠ 0` test). -/
def buildRetrievalPlan (question : String) (prefs : LengthPreferences)
    (manualMaxSources : Option ℤ) : RetrievalPlan :=
  let highDetail := highDetailOf question prefs
  let chunkLimit : ℕ :=
    match manualMaxSources with
    | some m =>
      if m ≠ 0 then (max 40 m).toNat else if highDetail then 280 else 160
    | none => if highDetail then 280 else 160
  { chunkLimit := chunkLimit
    pageLimit := if highDetail then 40 else 20
    maxContextTokens :=
      max 8000 (min (availableContextTokens prefs)
        (if highDetail then 70000 else 40000)) }

/-- One `uniqueChunksMap.set(chunk.id, chunk)` step: an existing key keeps
its insertion position but takes the later value. -/
def mapSetById (m : List (String × EmbeddedChunk)) (c : EmbeddedChunk) :
    List (String × EmbeddedChunk) :=
  if m.any (fun e => e.1 = c.id) then
    m.map (fun e => if e.1 = c.id then (e.1, c) else e)
  else m ++ [(c.id, c)]

/-- The id-deduplication at the head of `buildContext` (`Map` semantics:
first-seen position, last-seen value). -/
def dedupLastWins (chunks : List EmbeddedChunk) : List EmbeddedChunk :=
  (chunks.foldl mapSetById []).map (fun e => e.2)

/-- One `byDocument` grouping step of `prioritiseChunksByDocument`. -/
def groupAppend (m : List (String × List EmbeddedChunk)) (c : EmbeddedChunk) :
    List (String × List EmbeddedChunk) :=
  if m.any (fun e => e.1 = c.metadata.filename) then
    m.map (fun e => if e.1 = c.metadata.filename then (e.1, e.2 ++ [c]) else e)
  else m ++ [(c.metadata.filename, [c])]

/-- Comparator sorting a document's chunks by effective tokens descending. -/
def tokLe (a b : EmbeddedChunk) : Bool :=
  decide (effChunkTokens b ≤ effChunkTokens a)

/-- `prioritiseChunksByDocument`.  The source's `others` filter uses object
identity; with the structural membership used here it is likewise always
empty, because every input chunk lands in some group. -/
def prioritiseChunksByDocument (chunks : List EmbeddedChunk) :
    List EmbeddedChunk :=
  let byDocument := chunks.foldl groupAppend []
  let sortedGroups := byDocument.map (fun e => jsSort tokLe e.2)
  let primary := sortedGroups.filterMap (fun l => l.head?)
  let secondary := sortedGroups.flatMap (fun l => l.tail)
  let others := chunks.filter
    (fun c => !(primary.contains c) && !(secondary.contains c))
  primary ++ secondary ++ others

/-- `maxPageTokens = Math.min(Math.floor(tokenBudget * 0.25), 12000)`. -/
def pageBudgetOf (tokenBudget : ℚ) : ℚ :=
  min ((⌊tokenBudget * (1/4)⌋ : ℤ) : ℚ) 12000

/-- The page-selection loop of `buildContext` (`continue` skips an
overflowing page without halting). -/
def selectPagesGo (pageBudget : ℚ) :
    List FullPage → ℕ → List FullPage → List FullPage × ℕ
  | [], used, sel => (sel, used)
  | p :: rest, used, sel =>
    let pt := effPageTokens p
    if pageBudget < ((used + pt : ℕ) : ℚ) then
      selectPagesGo pageBudget rest used sel
    else selectPagesGo pageBudget rest (used + pt) (sel ++ [p])

/-- The fragment-selection loop of `buildContext` (`break` on the first
overflow, force-including it when nothing was selected yet). -/
def selectChunksGo (remaining : ℚ) :
    List EmbeddedChunk → ℕ → List EmbeddedChunk → List EmbeddedChunk
  | [], _, sel => sel
  | c :: rest, used, sel =>
    let ct := effChunkTokens c
    if remaining < ((used + ct : ℕ) : ℚ) then
      if sel.isEmpty then sel ++ [c] else sel
    else selectChunksGo remaining rest (used + ct) (sel ++ [c])

structure ContextBuildResult where
  text : String
  chunks : List EmbeddedChunk
  pages : List FullPage
deriving DecidableEq

/-- `getSectionLabel` (English labels of the current engine). -/
def getSectionLabel : SectionType → ℕ → String
  | .page, n => "page " ++ toString n
  | .paragraph, n => "paragraph " ++ toString n
  | .sheet, n => "sheet " ++ toString n
  | .line, n => "line " ++ toString n

/-- `formatContext`. -/
def formatContext (pages : List FullPage) (chunks : List EmbeddedChunk) :
    String :=
  let pageSections : List String :=
    if pages.isEmpty then []
    else "=== Full pages (verbatim) ===" ::
      pages.flatMap (fun p =>
        ["Page " ++ toString p.pageNumber ++ " from " ++ p.filename ++ ":",
         jsTrim p.fullContent, ""])
  let chunkSections : List String :=
    if chunks.isEmpty then []
    else "=== Key fragments ===" ::
      chunks.enum.flatMap (fun pr =>
        ["Fragment " ++ toString (pr.1 + 1) ++ " from " ++ pr.2.metadata.filename
           ++ ", " ++ getSectionLabel pr.2.metadata.sectionType pr.2.metadata.sectionNumber
           ++ ":",
         jsTrim pr.2.content, ""])
  jsTrim (String.intercalate "\n" (pageSections ++ chunkSections))

/-- The deduplicated, diversity-reordered fragment list of `buildContext`. -/
def contextPrioritized (chunks : List EmbeddedChunk) : List EmbeddedChunk :=
  prioritiseChunksByDocument (dedupLastWins chunks)

/-- The page-selection pass of `buildContext`: selected pages and
`pageTokensUsed`. -/
def contextPageSel (pages : List FullPage) (tokenBudget : ℚ) :
    List FullPage × ℕ :=
  selectPagesGo (pageBudgetOf tokenBudget) pages 0 []

/-- `remainingBudget = Math.max(tokenBudget - pageTokensUsed, 2000)`. -/
def contextRemaining (pages : List FullPage) (tokenBudget : ℚ) : ℚ :=
  max (tokenBudget - ((contextPageSel pages tokenBudget).2 : ℚ)) 2000

/-- The fragment-selection pass of `buildContext`. -/
def contextChunkSel (chunks : List EmbeddedChunk) (pages : List FullPage)
    (tokenBudget : ℚ) : List EmbeddedChunk :=
  selectChunksGo (contextRemaining pages tokenBudget)
    (contextPrioritized chunks) 0 []

/-- The final fragment list of `buildContext`: the loop's output, with the
trailing `if (selectedChunks.length === 0 && prioritizedChunks.length > 0)`
fallback to the first prioritized fragment. -/
def contextChunksFinal (chunks : List EmbeddedChunk) (pages : List FullPage)
    (tokenBudget : ℚ) : List EmbeddedChunk :=
  match contextPrioritized chunks, (contextChunkSel chunks pages tokenBudget).isEmpty with
  | c :: _, true => [c]
  | _, _ => contextChunkSel chunks pages tokenBudget

/-- `buildContext(chunks, pages, tokenBudget)`. -/
def buildContext (chunks : List EmbeddedChunk) (pages : List FullPage)
    (tokenBudget : ℚ) : ContextBuildResult :=
  { text := formatContext (contextPageSel pages tokenBudget).1
      (contextChunksFinal chunks pages tokenBudget)
    chunks := contextChunksFinal chunks pages tokenBudget
    pages := (contextPageSel pages tokenBudget).1 }

/-- Effective token total of a selected page list. -/
def pageTokenSum (pages : List FullPage) : ℕ :=
  (pages.map effPageTokens).sum

/-- Effective token total of a selected fragment list. -/
def chunkTokenSum (chunks : List EmbeddedChunk) : ℕ :=
  (chunks.map effChunkTokens).sum

/-- The retrieval-and-ranking slice of `generatePart`
(`src/lib/ragQuery.ts`): part-specific retrieval, merge with the base
fragments, heuristic scoring, truncation to `chunkLimit`. -/
def rankedChunksForPart (sim : EmbeddedChunk → ℚ) (docs : List StoredDocument)
    (baseChunks : List EmbeddedChunk) (part : PartPlan) (rp : RetrievalPlan) :
    Except String (List EmbeddedChunk) :=
  let additionalChunks := searchSimilar sim docs (max 40 (rp.chunkLimit / 2)) true none
  let merged := mergeChunks baseChunks additionalChunks
  (scoreChunksForPart part merged).map (fun l => l.take rp.chunkLimit)

/-! ## `src/services/documentDiagnostics.ts` and the entry gates of `query` -/

structure DocumentSummary where
  filename : String
  totalChunks : ℕ
  fullPages : ℕ
  createdAt : String
deriving DecidableEq

def getDocumentSummaries (docs : List StoredDocument) : List DocumentSummary :=
  docs.map (fun d => ⟨d.filename, d.chunks.length, d.fullPages.length, d.createdAt⟩)

/-- `describeDocumentCoverage`.  `fmtDate` abstracts the locale- and
timezone-dependent `new Date(createdAt).toLocaleString()`. -/
def describeDocumentCoverage (fmtDate : String → String)
    (docs : List StoredDocument) : String :=
  let summaries := getDocumentSummaries docs
  if summaries.isEmpty then
    "No documents have been indexed yet. Upload your files to proceed."
  else
    let totalChunks := (summaries.map (fun s => s.totalChunks)).sum
    let totalPages := (summaries.map (fun s => s.fullPages)).sum
    let header := "Document Status Report:\n• Total files processed: "
      ++ toString summaries.length
      ++ "\n• Total text chunks: " ++ toString totalChunks
      ++ "\n• Total full pages: " ++ toString totalPages
      ++ "\n\nFiles processed:"
    let details := String.intercalate "\n" (summaries.enum.map (fun pr =>
      toString (pr.1 + 1) ++ ". " ++ pr.2.filename
        ++ "\n   - Chunks: " ++ toString pr.2.totalChunks
        ++ "\n   - Pages: " ++ toString pr.2.fullPages
        ++ "\n   - Uploaded: " ++ fmtDate pr.2.createdAt))
    header ++ "\n" ++ details

inductive Language
  | ru
  | en
deriving DecidableEq

/-- The empty-query rejection message (the Russian literal is stored
mojibake-encoded in the snapshot; decoded best-effort). -/
def emptyQueryMessage : Language → String
  | .ru => "Запрос пуст. Пожалуйста, сформулируйте вопрос."
  | .en => "The query is empty. Please provide a question."

/-- The oversize-request rejection message (same encoding note). -/
def oversizeMessage : Language → String
  | .ru => "Запрошенный объём превышает максимально поддерживаемый даже при разбиении по частям. Уменьшите требования."
  | .en => "The requested length exceeds what can be generated even when split into parts. Please reduce the requirements."

structure RAGSource where
  filename : String
  sectionNumber : ℕ
  sectionType : SectionType
  content : String
  relevance : ℚ
deriving DecidableEq

structure RAGResponse where
  answer : String
  sources : List RAGSource
  tokensUsed : ℕ
  cost : ℚ
deriving DecidableEq

/-- `buildReportPlan`'s `normalizedLength` record. -/
def normalizedLengthOf (prefs : LengthPreferences) : LengthRequest :=
  { parts := some prefs.parts
    tokensPerPart := some prefs.tokensPerPart
    explicitParts := some prefs.explicitParts
    explicitTokens := some prefs.explicitTokens }

/-- Outcome of the synchronous pre-retrieval phase of `query`: either an
early response (returned before any embedding, retrieval or generation
call) or the length preferences and report plan the retrieval pipeline
proceeds with. -/
inductive QueryPhase1
  | early (response : RAGResponse)
  | proceed (prefs : LengthPreferences) (plan : ReportPlan)
deriving DecidableEq

/-- The entry gates of `query` (lines 495–533 of the engine): trim and
reject the empty question, serve diagnostics requests from storage, and
reject infeasible total length before building the retrieval plan. -/
def queryEarly (fmtDate : String → String) (docs : List StoredDocument)
    (question : String) (language : Language) : QueryPhase1 :=
  let trimmedQuestion := jsTrim question
  if trimmedQuestion = "" then
    .early ⟨emptyQueryMessage language, [], 0, 0⟩
  else if isDiagnosticsRequest trimmedQuestion then
    .early ⟨describeDocumentCoverage fmtDate docs, [], 0, 0⟩
  else
    let lengthPreferences := extractLengthPreferences trimmedQuestion
    let reportPlan := planReport trimmedQuestion (normalizedLengthOf lengthPreferences)
    if MODEL_OUTPUT_TOKEN_LIMIT * reportPlan.parts.length
        < lengthPreferences.totalRequestedTokens then
      .early ⟨oversizeMessage language, [], 0, 0⟩
    else
      .proceed lengthPreferences reportPlan

/-! ## Concrete instances used by witnesses and counterexamples -/

/-- A trivially constant similarity oracle: the verified membership, count
and ordering facts do not depend on the oracle's values. -/
def simZero : EmbeddedChunk → ℚ := fun _ => 0

def witnessChunkA : EmbeddedChunk :=
  ⟨"w1", "first", [], ⟨"w.pdf", 1, SectionType.page, 10, none⟩⟩

def witnessChunkB : EmbeddedChunk :=
  ⟨"w2", "second", [], ⟨"w.pdf", 2, SectionType.page, 20, none⟩⟩

/-- One page of the five-page counterexample corpus. -/
def fivePage (n : ℕ) : FullPage :=
  ⟨n, "content of the page", 100, "five.pdf"⟩

/-- One fragment of the five-page counterexample corpus. -/
def fiveChunk (n : ℕ) : EmbeddedChunk :=
  ⟨"five.pdf-" ++ toString n ++ "-0", "content of the page", [],
    ⟨"five.pdf", n, SectionType.page, 100, none⟩⟩

/-- A five-page, one-document corpus (each page owns one fragment). -/
def docsFive : List StoredDocument :=
  [⟨"five.pdf", "five.pdf",
    [fiveChunk 1, fiveChunk 2, fiveChunk 3, fiveChunk 4, fiveChunk 5],
    [fivePage 1, fivePage 2, fivePage 3, fivePage 4, fivePage 5],
    "2024-01-01"⟩]

/-- The page of the pdf document of the C3 counterexample corpus. -/
def pageA1 : FullPage := ⟨1, "alpha beta gamma", 100, "a.pdf"⟩

/-- The pdf fragment (on `pageA1`) of the C3 counterexample corpus. -/
def chunkA : EmbeddedChunk :=
  ⟨"a.pdf-1-0", "alpha beta gamma", [], ⟨"a.pdf", 1, SectionType.page, 100, none⟩⟩

/-- The docx fragment of the C3 counterexample corpus: its document has no
full pages at all, so its (filename, section) can match no selected page. -/
def chunkB : EmbeddedChunk :=
  ⟨"b.docx-1-0", "tax tax", [], ⟨"b.docx", 1, SectionType.paragraph, 100, none⟩⟩

/-- The two-document corpus of the C3 counterexample: a one-page pdf and a
pageless docx. -/
def docsMixed : List StoredDocument :=
  [ ⟨"a.pdf", "a.pdf", [chunkA], [pageA1], "2024-01-01"⟩,
    ⟨"b.docx", "b.docx", [chunkB], [], "2024-01-02"⟩ ]

/-- The part plan of the C3 counterexample. -/
def partTax : PartPlan := ⟨1, "Tax focus", 900, ["tax"]⟩

/-- The part plan of the C6 witness (the spec's tax/taxation example). -/
def partTaxOnly : PartPlan := ⟨1, "Tax", 900, ["tax"]⟩

/-- A fragment with two exact word-boundary occurrences of "tax". -/
def chunkExactTax : EmbeddedChunk :=
  ⟨"e", "the tax and tax again", [], ⟨"f", 1, SectionType.paragraph, 100, none⟩⟩

/-- A fragment containing "tax" only inside the word "taxation". -/
def chunkTaxation : EmbeddedChunk :=
  ⟨"s", "taxation taxation taxation taxation", [],
    ⟨"f", 2, SectionType.paragraph, 1400, none⟩⟩

/-- A fragment for the C7 counterexample (its content is irrelevant: the
regex for the keyword throws before any match is attempted). -/
def chunkPlain : EmbeddedChunk :=
  ⟨"z", "c plus plus", [], ⟨"f", 1, SectionType.paragraph, 100, none⟩⟩

/-- The part plan of the C7 counterexample, with the keyword `c++` whose
interpolated pattern `\bc++\b` does not compile. -/
def partCpp : PartPlan := ⟨1, "C++ development", 900, ["c++", "development"]⟩

/-- Budget counterexample fragments (C2): two 150-token fragments of one
document. -/
def chunkBudget1 : EmbeddedChunk :=
  ⟨"x", "aaaa", [], ⟨"f", 1, SectionType.paragraph, 150, none⟩⟩

def chunkBudget2 : EmbeddedChunk :=
  ⟨"y", "bbbb", [], ⟨"f", 2, SectionType.paragraph, 150, none⟩⟩

/-! ## Generic helper lemmas -/

theorem contains_iff_mem {l : List String} {x : String} :
    l.contains x = true ↔ x ∈ l := by
  simp [List.contains, List.elem_iff]

/-! ## Properties of `mergeChunks` (claim C9) -/

/-- The id set accumulated by `mergeDedupGo` while traversing a list. -/
def seenAfter : List EmbeddedChunk → List String → List String
  | [], seen => seen
  | c :: rest, seen =>
    if seen.contains c.id then seenAfter rest seen
    else seenAfter rest (c.id :: seen)

theorem mergeDedupGo_cons_mem {c : EmbeddedChunk} {rest : List EmbeddedChunk}
    {seen : List String} (hm : c.id ∈ seen) :
    mergeDedupGo (c :: rest) seen = mergeDedupGo rest seen := by
  simp [mergeDedupGo, hm]

theorem mergeDedupGo_cons_not_mem {c : EmbeddedChunk} {rest : List EmbeddedChunk}
    {seen : List String} (hm : c.id ∉ seen) :
    mergeDedupGo (c :: rest) seen = c :: mergeDedupGo rest (c.id :: seen) := by
  simp [mergeDedupGo, hm]

theorem seenAfter_cons_mem {c : EmbeddedChunk} {rest : List EmbeddedChunk}
    {seen : List String} (hm : c.id ∈ seen) :
    seenAfter (c :: rest) seen = seenAfter rest seen := by
  simp [seenAfter, hm]

theorem seenAfter_cons_not_mem {c : EmbeddedChunk} {rest : List EmbeddedChunk}
    {seen : List String} (hm : c.id ∉ seen) :
    seenAfter (c :: rest) seen = seenAfter rest (c.id :: seen) := by
  simp [seenAfter, hm]

theorem mergeDedupGo_sublist (l : List EmbeddedChunk) :
    ∀ seen : List String, (mergeDedupGo l seen).Sublist l := by
  induction l with
  | nil => intro seen; simp [mergeDedupGo]
  | cons c rest ih =>
    intro seen
    by_cases hm : c.id ∈ seen
    · rw [mergeDedupGo_cons_mem hm]
      exact (ih seen).cons c
    · rw [mergeDedupGo_cons_not_mem hm]
      exact (ih (c.id :: seen)).cons₂ c

theorem mem_mergeDedupGo (l : List EmbeddedChunk) :
    ∀ (seen : List String) (c : EmbeddedChunk), c ∈ mergeDedupGo l seen →
      c.id ∉ seen ∧ l.find? (fun d => d.id == c.id) = some c := by
  induction l with
  | nil => intro seen c h; simp [mergeDedupGo] at h
  | cons d rest ih =>
    intro seen c h
    by_cases hd : d.id ∈ seen
    · rw [mergeDedupGo_cons_mem hd] at h
      obtain ⟨h1, h2⟩ := ih seen c h
      have hdc : ¬(d.id == c.id) = true := by
        simp only [beq_iff_eq]
        intro he
        exact h1 (he ▸ hd)
      have hstep : List.find? (fun e => e.id == c.id) (d :: rest)
          = List.find? (fun e => e.id == c.id) rest :=
        List.find?_cons_of_neg _ hdc
      exact ⟨h1, by rw [hstep]; exact h2⟩
    · rw [mergeDedupGo_cons_not_mem hd] at h
      rcases List.mem_cons.mp h with rfl | h
      · refine ⟨hd, ?_⟩
        have hstep : List.find? (fun e => e.id == c.id) (c :: rest) = some c :=
          List.find?_cons_of_pos _ (by simp)
        exact hstep
      · obtain ⟨h1, h2⟩ := ih (d.id :: seen) c h
        have hcs : c.id ∉ seen := fun hx => h1 (List.mem_cons_of_mem _ hx)
        have hcd : c.id ≠ d.id := fun hx => h1 (hx ▸ List.mem_cons_self _ _)
        have hdc : ¬(d.id == c.id) = true := by
          simp only [beq_iff_eq]
          exact fun he => hcd he.symm
        have hstep : List.find? (fun e => e.id == c.id) (d :: rest)
            = List.find? (fun e => e.id == c.id) rest :=
          List.find?_cons_of_neg _ hdc
        exact ⟨hcs, by rw [hstep]; exact h2⟩

theorem nodup_ids_mergeDedupGo (l : List EmbeddedChunk) :
    ∀ seen : List String, ((mergeDedupGo l seen).map (fun c => c.id)).Nodup := by
  induction l with
  | nil => intro seen; simp [mergeDedupGo]
  | cons c rest ih =>
    intro seen
    by_cases hm : c.id ∈ seen
    · rw [mergeDedupGo_cons_mem hm]
      exact ih seen
    · rw [mergeDedupGo_cons_not_mem hm]
      simp only [List.map_cons, List.nodup_cons]
      refine ⟨?_, ih (c.id :: seen)⟩
      intro hmem
      obtain ⟨d, hd, hde⟩ := List.mem_map.mp hmem
      have := (mem_mergeDedupGo rest (c.id :: seen) d hd).1
      exact this (hde ▸ List.mem_cons_self _ _)

theorem id_covered_mergeDedupGo (l : List EmbeddedChunk) :
    ∀ (seen : List String) (c : EmbeddedChunk), c ∈ l →
      c.id ∈ seen ∨ ∃ d ∈ mergeDedupGo l seen, d.id = c.id := by
  induction l with
  | nil => intro seen c h; cases h
  | cons d rest ih =>
    intro seen c h
    by_cases hd : d.id ∈ seen
    · rw [mergeDedupGo_cons_mem hd]
      rcases List.mem_cons.mp h with rfl | h
      · exact Or.inl hd
      · exact ih seen c h
    · rw [mergeDedupGo_cons_not_mem hd]
      rcases List.mem_cons.mp h with rfl | h
      · exact Or.inr ⟨c, List.mem_cons_self _ _, rfl⟩
      · rcases ih (d.id :: seen) c h with hs | hex
        · rcases List.mem_cons.mp hs with he | hs
          · exact Or.inr ⟨d, List.mem_cons_self _ _, he.symm⟩
          · exact Or.inl hs
        · obtain ⟨e, he, hee⟩ := hex
          exact Or.inr ⟨e, List.mem_cons_of_mem _ he, hee⟩

theorem mergeDedupGo_eq_nil (l : List EmbeddedChunk) :
    ∀ seen : List String, (∀ c ∈ l, c.id ∈ seen) → mergeDedupGo l seen = [] := by
  induction l with
  | nil => intro seen _; rfl
  | cons c rest ih =>
    intro seen h
    rw [mergeDedupGo_cons_mem (h c (List.mem_cons_self _ _))]
    exact ih seen (fun d hd => h d (List.mem_cons_of_mem _ hd))

theorem mergeDedupGo_append (l₁ l₂ : List EmbeddedChunk) :
    ∀ seen : List String,
      mergeDedupGo (l₁ ++ l₂) seen
        = mergeDedupGo l₁ seen ++ mergeDedupGo l₂ (seenAfter l₁ seen) := by
  induction l₁ with
  | nil => intro seen; simp [mergeDedupGo, seenAfter]
  | cons c rest ih =>
    intro seen
    by_cases hm : c.id ∈ seen
    · rw [List.cons_append, mergeDedupGo_cons_mem hm, mergeDedupGo_cons_mem hm,
        seenAfter_cons_mem hm]
      exact ih seen
    · rw [List.cons_append, mergeDedupGo_cons_not_mem hm,
        mergeDedupGo_cons_not_mem hm, seenAfter_cons_not_mem hm, List.cons_append]
      rw [ih (c.id :: seen)]

theorem mem_seenAfter (l : List EmbeddedChunk) :
    ∀ (seen : List String) (i : String),
      i ∈ seenAfter l seen ↔ i ∈ seen ∨ ∃ c ∈ l, c.id = i := by
  induction l with
  | nil => intro seen i; simp [seenAfter]
  | cons c rest ih =>
    intro seen i
    by_cases hm : c.id ∈ seen
    · rw [seenAfter_cons_mem hm, ih]
      constructor
      · rintro (hs | hr)
        · exact Or.inl hs
        · obtain ⟨d, hd, hde⟩ := hr
          exact Or.inr ⟨d, List.mem_cons_of_mem _ hd, hde⟩
      · rintro (hs | ⟨d, hd, hde⟩)
        · exact Or.inl hs
        · rcases List.mem_cons.mp hd with rfl | hd
          · exact Or.inl (hde ▸ hm)
          · exact Or.inr ⟨d, hd, hde⟩
    · rw [seenAfter_cons_not_mem hm, ih]
      constructor
      · rintro (hs | hr)
        · rcases List.mem_cons.mp hs with rfl | hs
          · exact Or.inr ⟨c, List.mem_cons_self _ _, rfl⟩
          · exact Or.inl hs
        · obtain ⟨d, hd, hde⟩ := hr
          exact Or.inr ⟨d, List.mem_cons_of_mem _ hd, hde⟩
      · rintro (hs | ⟨d, hd, hde⟩)
        · exact Or.inl (List.mem_cons_of_mem _ hs)
        · rcases List.mem_cons.mp hd with rfl | hd
          · exact Or.inl (hde ▸ List.mem_cons_self _ _)
          · exact Or.inr ⟨d, hd, hde⟩

theorem mergeDedupGo_of_nodup (l : List EmbeddedChunk) :
    ∀ seen : List String, ((l.map (fun c => c.id)).Nodup) →
      (∀ c ∈ l, c.id ∉ seen) → mergeDedupGo l seen = l := by
  induction l with
  | nil => intro seen _ _; rfl
  | cons c rest ih =>
    intro seen hnd hs
    rw [mergeDedupGo_cons_not_mem (hs c (List.mem_cons_self _ _))]
    simp only [List.map_cons, List.nodup_cons] at hnd
    congr 1
    refine ih (c.id :: seen) hnd.2 ?_
    intro d hd hmem
    rcases List.mem_cons.mp hmem with he | hmem
    · exact hnd.1 (he ▸ List.mem_map_of_mem (fun c => c.id) hd)
    · exact hs d (List.mem_cons_of_mem _ hd) hmem

theorem mergeChunks_absorb (a b x : List EmbeddedChunk)
    (hx : ∀ c ∈ x, c ∈ a ++ b) :
    mergeChunks (mergeChunks a b) x = mergeChunks a b := by
  unfold mergeChunks
  rw [mergeDedupGo_append]
  have hm : mergeDedupGo (mergeDedupGo (a ++ b) []) [] = mergeDedupGo (a ++ b) [] := by
    refine mergeDedupGo_of_nodup _ [] (nodup_ids_mergeDedupGo _ []) ?_
    intro c _ hmem
    cases hmem
  rw [hm]
  have hv : mergeDedupGo x (seenAfter (mergeDedupGo (a ++ b) []) []) = [] := by
    refine mergeDedupGo_eq_nil _ _ ?_
    intro c hc
    rcases id_covered_mergeDedupGo (a ++ b) [] c (hx c hc) with hs | ⟨d, hd, hde⟩
    · cases hs
    · exact (mem_seenAfter _ _ _).mpr (Or.inr ⟨d, hd, hde⟩)
  rw [hv, List.append_nil]

/-- C9: `mergeChunks` preserves first-seen order (its result is a sublist of
the concatenation whose every element is the first occurrence of its id),
contains no duplicate ids, and is idempotent: merging a list with itself
equals deduplicating it, and re-merging the merged result with either input
returns the merged result unchanged. -/
theorem c9_mergeChunks_properties (a b : List EmbeddedChunk) :
    ((mergeChunks a b).map (fun c => c.id)).Nodup
    ∧ (mergeChunks a b).Sublist (a ++ b)
    ∧ (∀ c ∈ mergeChunks a b, (a ++ b).find? (fun d => d.id == c.id) = some c)
    ∧ mergeChunks a a = mergeChunks a []
    ∧ mergeChunks (mergeChunks a b) a = mergeChunks a b
    ∧ mergeChunks (mergeChunks a b) b = mergeChunks a b := by
  refine ⟨nodup_ids_mergeDedupGo _ [], mergeDedupGo_sublist _ [], ?_, ?_, ?_, ?_⟩
  · intro c hc
    exact (mem_mergeDedupGo _ [] c hc).2
  · show mergeDedupGo (a ++ a) [] = mergeDedupGo (a ++ []) []
    rw [mergeDedupGo_append, List.append_nil]
    have hv : mergeDedupGo a (seenAfter a []) = [] := by
      refine mergeDedupGo_eq_nil _ _ ?_
      intro c hc
      exact (mem_seenAfter _ _ _).mpr (Or.inr ⟨c, hc, rfl⟩)
    rw [hv, List.append_nil]
  · exact mergeChunks_absorb a b a (fun c hc => List.mem_append_left _ hc)
  · exact mergeChunks_absorb a b b (fun c hc => List.mem_append_right _ hc)

/-! ## `planReport` structure (claim C1) -/

theorem reindexFrom_length (l : List PartPlan) :
    ∀ i : ℕ, (reindexFrom i l).length = l.length := by
  induction l with
  | nil => intro i; rfl
  | cons p rest ih => intro i; simp [reindexFrom, ih]

theorem reindexFrom_map_index (l : List PartPlan) :
    ∀ i : ℕ, (reindexFrom i l).map (fun p => p.index) = List.range' i l.length := by
  induction l with
  | nil => intro i; rfl
  | cons p rest ih =>
    intro i
    simp [reindexFrom, ih, List.range'_succ]

theorem exists_title_reindexFrom (f : String → Bool) :
    ∀ (l : List PartPlan) (i : ℕ), (∃ p ∈ l, f p.title = true) →
      ∃ q ∈ reindexFrom i l, f q.title = true := by
  intro l
  induction l with
  | nil =>
    intro i h
    obtain ⟨p, hp, _⟩ := h
    cases hp
  | cons a rest ih =>
    intro i h
    obtain ⟨p, hp, hf⟩ := h
    simp only [reindexFrom]
    rcases List.mem_cons.mp hp with rfl | hp
    · exact ⟨{ p with index := i }, List.mem_cons_self _ _, hf⟩
    · obtain ⟨q, hq, hfq⟩ := ih (i + 1) ⟨p, hp, hf⟩
      exact ⟨q, List.mem_cons_of_mem _ hq, hfq⟩

theorem mem_take_append {α : Type} {x : α} :
    ∀ (l₁ l₂ : List α) (n : ℕ), l₁.length ≤ n → x ∈ l₁ → x ∈ (l₁ ++ l₂).take n := by
  intro l₁
  induction l₁ with
  | nil => intro l₂ n _ hx; cases hx
  | cons a rest ih =>
    intro l₂ n hn hx
    cases n with
    | zero => simp at hn
    | succ m =>
      rw [List.cons_append, List.take_succ_cons]
      rcases List.mem_cons.mp hx with rfl | hx
      · exact List.mem_cons_self _ _
      · refine List.mem_cons_of_mem _ (ih l₂ m ?_ hx)
        simp only [List.length_cons] at hn
        omega

theorem mem_take_of_le {α : Type} {x : α} (l : List α) (n : ℕ)
    (h : l.length ≤ n) (hx : x ∈ l) : x ∈ l.take n := by
  rw [List.take_of_length_le h]
  exact hx

theorem introPartPlan_title_match (len : LengthRequest) :
    titleMatchesAny INTRO_KEYWORDS (introPartPlan len).title = true := by
  have h : (introPartPlan len).title = "Introduction" := rfl
  rw [h]
  decide

theorem conclusionPartPlan_title_match (len : LengthRequest) (n : ℕ) :
    titleMatchesAny CONCLUSION_KEYWORDS (conclusionPartPlan len n).title = true := by
  have h : (conclusionPartPlan len n).title = "Conclusions and recommendations" := rfl
  rw [h]
  decide

theorem planBaseTopics_length_le (request : String) (len : LengthRequest)
    (requested : ℕ) : (planBaseTopics request len requested).length ≤ requested := by
  unfold planBaseTopics
  by_cases h : (detectExplicitParts request).isEmpty = true
  · rw [if_pos h]
    simp
  · rw [if_neg h]
    simp only [List.length_map, List.enum_length, List.length_take]
    omega

theorem exists_concl_withIntroConclusion (len : LengthRequest)
    (B : List PartPlan) :
    ∃ p ∈ withIntroConclusion len B,
      titleMatchesAny CONCLUSION_KEYWORDS p.title = true := by
  simp only [withIntroConclusion]
  by_cases hI : B.any (fun p => titleMatchesAny INTRO_KEYWORDS p.title) = true
  · rw [if_pos hI]
    by_cases hC : B.any (fun p => titleMatchesAny CONCLUSION_KEYWORDS p.title) = true
    · rw [if_pos hC]
      exact List.any_eq_true.mp hC
    · rw [if_neg hC]
      exact ⟨conclusionPartPlan len (B.length + 1),
        List.mem_append_right _ (List.mem_singleton_self _),
        conclusionPartPlan_title_match len _⟩
  · rw [if_neg hI]
    by_cases hC : (introPartPlan len :: B).any
        (fun p => titleMatchesAny CONCLUSION_KEYWORDS p.title) = true
    · rw [if_pos hC]
      exact List.any_eq_true.mp hC
    · rw [if_neg hC]
      exact ⟨conclusionPartPlan len ((introPartPlan len :: B).length + 1),
        List.mem_append_right _ (List.mem_singleton_self _),
        conclusionPartPlan_title_match len _⟩

theorem exists_intro_withIntroConclusion_take (len : LengthRequest)
    (B : List PartPlan) (R : ℕ) (h1 : 1 ≤ R) (hlen : B.length ≤ R) :
    ∃ p ∈ (withIntroConclusion len B).take R,
      titleMatchesAny INTRO_KEYWORDS p.title = true := by
  obtain ⟨m, rfl⟩ : ∃ m, R = m + 1 := ⟨R - 1, by omega⟩
  simp only [withIntroConclusion]
  by_cases hI : B.any (fun p => titleMatchesAny INTRO_KEYWORDS p.title) = true
  · rw [if_pos hI]
    obtain ⟨p, hp, hf⟩ := List.any_eq_true.mp hI
    by_cases hC : B.any (fun p => titleMatchesAny CONCLUSION_KEYWORDS p.title) = true
    · rw [if_pos hC]
      exact ⟨p, mem_take_of_le _ _ hlen hp, hf⟩
    · rw [if_neg hC]
      exact ⟨p, mem_take_append _ _ _ hlen hp, hf⟩
  · rw [if_neg hI]
    by_cases hC : (introPartPlan len :: B).any
        (fun p => titleMatchesAny CONCLUSION_KEYWORDS p.title) = true
    · rw [if_pos hC, List.take_succ_cons]
      exact ⟨introPartPlan len, List.mem_cons_self _ _, introPartPlan_title_match len⟩
    · rw [if_neg hC, List.cons_append, List.take_succ_cons]
      exact ⟨introPartPlan len, List.mem_cons_self _ _, introPartPlan_title_match len⟩

/-- C1 (corrected): `planReport` always returns parts indexed contiguously
1..N starting at 1; whenever at least one part is requested, the list
contains an intro-matching part; the post-processing also inserts a
conclusion-matching part before truncation, so a conclusion-matching part
is present whenever the returned list is strictly shorter than the
requested count (i.e. when truncation did not bite).  The original claim's
"exactly one conclusion-like entry for every requested length" fails
because truncating to the requested count can drop the appended Conclusions
part — see the counterexample. -/
theorem c1_planReport_structure (request : String) (len : LengthRequest) :
    ((planReport request len).parts.map (fun p => p.index)
        = List.range' 1 (planReport request len).parts.length)
    ∧ (1 ≤ requestedPartsOf request len →
        ∃ p ∈ (planReport request len).parts,
          titleMatchesAny INTRO_KEYWORDS p.title = true)
    ∧ ((planReport request len).parts.length < requestedPartsOf request len →
        ∃ p ∈ (planReport request len).parts,
          titleMatchesAny CONCLUSION_KEYWORDS p.title = true) := by
  have hparts : (planReport request len).parts
      = reindexFrom 1
          ((withIntroConclusion len
              (planBaseTopics request len (requestedPartsOf request len))).take
            (requestedPartsOf request len)) := rfl
  refine ⟨?_, ?_, ?_⟩
  · rw [hparts, reindexFrom_map_index, reindexFrom_length]
  · intro h1
    rw [hparts]
    exact exists_title_reindexFrom _ _ _
      (exists_intro_withIntroConclusion_take len _ _ h1
        (planBaseTopics_length_le request len _))
  · intro h2
    rw [hparts] at h2 ⊢
    rw [reindexFrom_length, List.length_take] at h2
    have htake : (withIntroConclusion len
        (planBaseTopics request len (requestedPartsOf request len))).take
          (requestedPartsOf request len)
        = withIntroConclusion len
            (planBaseTopics request len (requestedPartsOf request len)) :=
      List.take_of_length_le (by omega)
    rw [htake]
    exact exists_title_reindexFrom _ _ _ (exists_concl_withIntroConclusion len _)

/-- C1 counterexample: a plain request with two requested parts yields the
plan [Introduction, Regulatory framework and licensing] — contiguously
indexed and with exactly one intro-like part, but with zero
conclusion-matching parts, refuting "exactly one part whose title matches
the conclusion-keyword set". -/
theorem c1_counterexample :
    (planReport "Compare vendor A and vendor B"
        ⟨some 2, some 800, some false, some false⟩).parts.length = 2
    ∧ ((planReport "Compare vendor A and vendor B"
        ⟨some 2, some 800, some false, some false⟩).parts.countP
          (fun p => titleMatchesAny INTRO_KEYWORDS p.title)) = 1
    ∧ ((planReport "Compare vendor A and vendor B"
        ⟨some 2, some 800, some false, some false⟩).parts.countP
          (fun p => titleMatchesAny CONCLUSION_KEYWORDS p.title)) = 0 := by
  decide

/-- C1 witness: an explicit three-item outline with nine requested parts —
both hypotheses of the amended theorem hold and are discharged concretely. -/
theorem c1_witness :
    1 ≤ requestedPartsOf "1. Alpha\n2. Beta\n3. Gamma" ⟨some 9, some 800, some true, some true⟩
    ∧ (planReport "1. Alpha\n2. Beta\n3. Gamma" ⟨some 9, some 800, some true, some true⟩).parts.length
        < requestedPartsOf "1. Alpha\n2. Beta\n3. Gamma" ⟨some 9, some 800, some true, some true⟩
    ∧ ((planReport "1. Alpha\n2. Beta\n3. Gamma" ⟨some 9, some 800, some true, some true⟩).parts.map
          (fun p => p.index)
        = List.range' 1 (planReport "1. Alpha\n2. Beta\n3. Gamma"
            ⟨some 9, some 800, some true, some true⟩).parts.length)
    ∧ (∃ p ∈ (planReport "1. Alpha\n2. Beta\n3. Gamma"
          ⟨some 9, some 800, some true, some true⟩).parts,
        titleMatchesAny INTRO_KEYWORDS p.title = true)
    ∧ (∃ p ∈ (planReport "1. Alpha\n2. Beta\n3. Gamma"
          ⟨some 9, some 800, some true, some true⟩).parts,
        titleMatchesAny CONCLUSION_KEYWORDS p.title = true) :=
  ⟨by decide, by decide,
    (c1_planReport_structure "1. Alpha\n2. Beta\n3. Gamma"
      ⟨some 9, some 800, some true, some true⟩).1,
    (c1_planReport_structure "1. Alpha\n2. Beta\n3. Gamma"
      ⟨some 9, some 800, some true, some true⟩).2.1 (by decide),
    (c1_planReport_structure "1. Alpha\n2. Beta\n3. Gamma"
      ⟨some 9, some 800, some true, some true⟩).2.2 (by decide)⟩

/-! ## The entry gates of `query` (claims C8 and C10) -/

theorem str_append_ne_empty_left (s t : String) (h : s ≠ "") : s ++ t ≠ "" := by
  intro hc
  have hlen := congrArg String.length hc
  rw [String.length_append] at hlen
  have h0 : ("" : String).length = 0 := rfl
  rw [h0] at hlen
  have hs : s.length = 0 := by omega
  apply h
  cases s with
  | mk data =>
    have hdl : data.length = 0 := hs
    have hd : data = [] := List.length_eq_zero.mp hdl
    rw [hd]

theorem describeDocumentCoverage_ne_empty (fmtDate : String → String)
    (docs : List StoredDocument) : describeDocumentCoverage fmtDate docs ≠ "" := by
  cases docs with
  | nil =>
    have hred : describeDocumentCoverage fmtDate []
        = "No documents have been indexed yet. Upload your files to proceed." := rfl
    rw [hred]
    decide
  | cons d rest =>
    simp only [describeDocumentCoverage, getDocumentSummaries, List.map_cons,
      List.isEmpty_cons, Bool.false_eq_true, if_false]
    repeat apply str_append_ne_empty_left
    decide

/-- C10: a question whose lower-cased trimmed text contains one of the fixed
diagnostic keywords bypasses length checking, report planning, retrieval and
generation: `query` returns the document-coverage summary as the answer with
an empty sources list, zero tokens used and zero cost, before any embedding,
retrieval or generation call (it takes the diagnostics early-return branch of
the pre-retrieval phase). -/
theorem c10_diagnostics_bypass (fmtDate : String → String)
    (docs : List StoredDocument) (question : String) (language : Language)
    (h : isDiagnosticsRequest (jsTrim question) = true) :
    queryEarly fmtDate docs question language
      = QueryPhase1.early ⟨describeDocumentCoverage fmtDate docs, [], 0, 0⟩ := by
  have hne : ¬ jsTrim question = "" := by
    intro he
    rw [he] at h
    exact absurd h (by decide)
  simp [queryEarly, hne, h]

/-- C10 witness: a concrete diagnostics question served from an empty store. -/
theorem c10_witness :
    isDiagnosticsRequest (jsTrim "Please list files in the corpus") = true
    ∧ queryEarly id [] "Please list files in the corpus" Language.en
        = QueryPhase1.early ⟨describeDocumentCoverage id [], [], 0, 0⟩ :=
  ⟨by decide, c10_diagnostics_bypass id [] "Please list files in the corpus"
    Language.en (by decide)⟩

/-- C8: when the total requested token budget (parts × tokensPerPart)
exceeds the model's per-call output ceiling (16000) multiplied by the
planned part count, `query` returns an early, well-formed response — before
any embedding, retrieval or generation call — with a nonempty explanatory
message, an empty sources list, zero tokens used and zero cost; on every
non-diagnostics question the message is the fixed oversize rejection text. -/
theorem c8_oversize_rejected_early (fmtDate : String → String)
    (docs : List StoredDocument) (question : String) (language : Language)
    (h : MODEL_OUTPUT_TOKEN_LIMIT
          * (planReport (jsTrim question)
              (normalizedLengthOf (extractLengthPreferences (jsTrim question)))).parts.length
        < (extractLengthPreferences (jsTrim question)).totalRequestedTokens) :
    ∃ r, queryEarly fmtDate docs question language = QueryPhase1.early r
      ∧ r.sources = [] ∧ r.tokensUsed = 0 ∧ r.cost = 0 ∧ r.answer ≠ ""
      ∧ (isDiagnosticsRequest (jsTrim question) = false →
          r.answer = oversizeMessage language) := by
  by_cases ht : jsTrim question = ""
  · exfalso
    rw [ht] at h
    revert h
    decide
  · by_cases hd : isDiagnosticsRequest (jsTrim question) = true
    · refine ⟨⟨describeDocumentCoverage fmtDate docs, [], 0, 0⟩, ?_, rfl, rfl, rfl, ?_, ?_⟩
      · simp [queryEarly, ht, hd]
      · exact describeDocumentCoverage_ne_empty fmtDate docs
      · intro hf
        rw [hd] at hf
        cases hf
    · have hdf : isDiagnosticsRequest (jsTrim question) = false := by
        cases hx : isDiagnosticsRequest (jsTrim question) with
        | false => rfl
        | true => exact absurd hx hd
      refine ⟨⟨oversizeMessage language, [], 0, 0⟩, ?_, rfl, rfl, rfl, ?_, fun _ => rfl⟩
      · simp [queryEarly, ht, hdf, h]
      · cases language <;> decide

/-- C8 witness: "3 parts 17000 tokens" requests 51000 tokens against a
three-part plan whose ceiling is 48000, and is rejected with the oversize
message. -/
theorem c8_witness :
    (MODEL_OUTPUT_TOKEN_LIMIT
        * (planReport (jsTrim "3 parts 17000 tokens")
            (normalizedLengthOf (extractLengthPreferences (jsTrim "3 parts 17000 tokens")))).parts.length
      < (extractLengthPreferences (jsTrim "3 parts 17000 tokens")).totalRequestedTokens)
    ∧ ∃ r, queryEarly id [] "3 parts 17000 tokens" Language.en = QueryPhase1.early r
        ∧ r.sources = [] ∧ r.tokensUsed = 0 ∧ r.cost = 0 ∧ r.answer ≠ ""
        ∧ (isDiagnosticsRequest (jsTrim "3 parts 17000 tokens") = false →
            r.answer = oversizeMessage Language.en) :=
  ⟨by decide, c8_oversize_rejected_early id [] "3 parts 17000 tokens"
    Language.en (by decide)⟩

/-- C9 witness: the merge properties instantiated at a concrete overlapping
pair of fragment lists. -/
theorem c9_witness :
    ((mergeChunks [witnessChunkA, witnessChunkB] [witnessChunkB, witnessChunkA]).map
        (fun c => c.id)).Nodup
    ∧ (mergeChunks [witnessChunkA, witnessChunkB] [witnessChunkB, witnessChunkA]).Sublist
        ([witnessChunkA, witnessChunkB] ++ [witnessChunkB, witnessChunkA])
    ∧ (∀ c ∈ mergeChunks [witnessChunkA, witnessChunkB] [witnessChunkB, witnessChunkA],
        ([witnessChunkA, witnessChunkB] ++ [witnessChunkB, witnessChunkA]).find?
          (fun d => d.id == c.id) = some c)
    ∧ mergeChunks [witnessChunkA, witnessChunkB] [witnessChunkA, witnessChunkB]
        = mergeChunks [witnessChunkA, witnessChunkB] []
    ∧ mergeChunks
        (mergeChunks [witnessChunkA, witnessChunkB] [witnessChunkB, witnessChunkA])
        [witnessChunkA, witnessChunkB]
        = mergeChunks [witnessChunkA, witnessChunkB] [witnessChunkB, witnessChunkA]
    ∧ mergeChunks
        (mergeChunks [witnessChunkA, witnessChunkB] [witnessChunkB, witnessChunkA])
        [witnessChunkB, witnessChunkA]
        = mergeChunks [witnessChunkA, witnessChunkB] [witnessChunkB, witnessChunkA] :=
  c9_mergeChunks_properties [witnessChunkA, witnessChunkB] [witnessChunkB, witnessChunkA]

/-! ## `buildRetrievalPlan` invariants (claim C4) -/

/-- C4 (corrected): every field of the retrieval plan is positive, and
`maxContextTokens` respects the context-window bound (window minus reserved
output minus safety margin) whenever that bound is at least the 8000-token
clamp floor.  The original unconditional window bound fails: when the
reserved output exceeds the window, the engine clamps `maxContextTokens` up
to 8000, above the bound — see the counterexample. -/
theorem c4_retrievalPlan_invariants (question : String) (prefs : LengthPreferences)
    (manual : Option ℤ) :
    0 < (buildRetrievalPlan question prefs manual).chunkLimit
    ∧ 0 < (buildRetrievalPlan question prefs manual).pageLimit
    ∧ 0 < (buildRetrievalPlan question prefs manual).maxContextTokens
    ∧ (8000 ≤ availableContextTokens prefs →
        (buildRetrievalPlan question prefs manual).maxContextTokens
          ≤ availableContextTokens prefs) := by
  refine ⟨?_, ?_, ?_, ?_⟩
  · show 0 < (match manual with
      | some m => if m ≠ 0 then (max 40 m).toNat
          else if highDetailOf question prefs then 280 else 160
      | none => if highDetailOf question prefs then 280 else 160)
    cases manual with
    | none => cases hd : highDetailOf question prefs <;> simp [hd]
    | some m =>
      show 0 < if m ≠ 0 then (max 40 m).toNat
          else if highDetailOf question prefs then 280 else 160
      by_cases hm : m ≠ 0
      · rw [if_pos hm]
        have h40 : (40 : ℤ) ≤ max 40 m := le_max_left _ _
        omega
      · rw [if_neg hm]
        cases hd : highDetailOf question prefs <;> simp [hd]
  · show 0 < (if highDetailOf question prefs then 40 else 20)
    cases hd : highDetailOf question prefs <;> simp [hd]
  · show (0 : ℚ) < max 8000 (min (availableContextTokens prefs)
      (if highDetailOf question prefs then 70000 else 40000))
    exact lt_max_iff.mpr (Or.inl (by norm_num))
  · intro h8
    show max 8000 (min (availableContextTokens prefs)
        (if highDetailOf question prefs then 70000 else 40000))
      ≤ availableContextTokens prefs
    exact max_le h8 (min_le_left _ _)

/-- C4 counterexample: "8 parts 16000 tokens" reserves 8 × 16000 × 1.25 =
160000 output tokens, so the window bound is −42000; the plan's
`maxContextTokens` is clamped to 8000, strictly above the bound, refuting
the claim that `maxContextTokens` never exceeds it.  (This question passes
the oversize gate: 128000 = 16000 × 8 planned parts.) -/
theorem c4_counterexample :
    availableContextTokens (extractLengthPreferences "8 parts 16000 tokens")
      < (buildRetrievalPlan "8 parts 16000 tokens"
          (extractLengthPreferences "8 parts 16000 tokens") none).maxContextTokens := by
  have he : extractLengthPreferences "8 parts 16000 tokens"
      = ⟨8, 16000, true, true, 128000⟩ := by decide
  have hd : highDetailOf "8 parts 16000 tokens"
      (extractLengthPreferences "8 parts 16000 tokens") = true := by decide
  have hav : availableContextTokens (extractLengthPreferences "8 parts 16000 tokens")
      = -42000 := by
    rw [he]
    norm_num [availableContextTokens, MODEL_CONTEXT_TOKEN_LIMIT,
      CONTEXT_SAFETY_MARGIN, defaultPartBufferRatio]
  show availableContextTokens (extractLengthPreferences "8 parts 16000 tokens")
      < max 8000 (min (availableContextTokens (extractLengthPreferences "8 parts 16000 tokens"))
        (if highDetailOf "8 parts 16000 tokens"
            (extractLengthPreferences "8 parts 16000 tokens") then (70000 : ℚ) else 40000))
  rw [hd, hav]
  have hmin : min (-42000 : ℚ) 70000 = -42000 := min_eq_left (by norm_num)
  have hmax : max (8000 : ℚ) (-42000) = 8000 := max_eq_left (by norm_num)
  simp only [if_true, hmin, hmax]
  norm_num

/-- C4 witness: "3 parts 800 tokens" reserves 3000 output tokens, the
window bound is 115000 ≥ 8000, and the plan's `maxContextTokens` respects
it. -/
theorem c4_witness :
    8000 ≤ availableContextTokens (extractLengthPreferences "3 parts 800 tokens")
    ∧ (buildRetrievalPlan "3 parts 800 tokens"
        (extractLengthPreferences "3 parts 800 tokens") none).maxContextTokens
      ≤ availableContextTokens (extractLengthPreferences "3 parts 800 tokens") := by
  have he : extractLengthPreferences "3 parts 800 tokens"
      = ⟨3, 800, true, true, 2400⟩ := by decide
  have h8 : 8000 ≤ availableContextTokens (extractLengthPreferences "3 parts 800 tokens") := by
    rw [he]
    norm_num [availableContextTokens, MODEL_CONTEXT_TOKEN_LIMIT,
      CONTEXT_SAFETY_MARGIN, defaultPartBufferRatio]
  exact ⟨h8, (c4_retrievalPlan_invariants "3 parts 800 tokens"
    (extractLengthPreferences "3 parts 800 tokens") none).2.2.2 h8⟩

/-! ## Page selection counts (claim C5) -/

theorem length_filterMap_filter {α : Type} {β : Type} (f : α → Option β)
    (g : α → Bool) (hfg : ∀ a, (f a).isSome = g a) :
    ∀ l : List α, (l.filterMap f).length = (l.filter g).length := by
  intro l
  induction l with
  | nil => rfl
  | cons a rest ih =>
    cases hfa : f a with
    | none =>
      have hga : g a = false := by rw [← hfg a, hfa]; rfl
      simp [List.filterMap_cons, hfa, List.filter_cons, hga, ih]
    | some b =>
      have hga : g a = true := by rw [← hfg a, hfa]; rfl
      simp [List.filterMap_cons, hfa, List.filter_cons, hga, ih]

theorem length_pageChunkPairs (sim : EmbeddedChunk → ℚ) (docs : List StoredDocument) :
    (pageChunkPairs sim docs).length = (pagesWithChunks docs).length := by
  induction docs with
  | nil => rfl
  | cons d rest ih =>
    simp only [pageChunkPairs, pagesWithChunks, List.flatMap_cons, List.length_append]
    have hdoc : ((d.fullPages.filterMap (fun page =>
        let pageChunks := d.chunks.filter
          (fun c => c.metadata.sectionNumber = page.pageNumber)
        if pageChunks.isEmpty then none
        else some (page, ((pageChunks.map sim).sum) / ((pageChunks.length : ℕ) : ℚ)))).length)
        = ((d.fullPages.filter (fun page =>
            !(d.chunks.filter
              (fun c => c.metadata.sectionNumber = page.pageNumber)).isEmpty)).length) := by
      refine length_filterMap_filter _ _ ?_ d.fullPages
      intro page
      by_cases h : (d.chunks.filter
          (fun c => c.metadata.sectionNumber = page.pageNumber)).isEmpty = true
      · simp [h]
      · simp [h]
    rw [hdoc]
    simp only [pageChunkPairs, pagesWithChunks] at ih
    rw [ih]

theorem findRelevantPages_length (sim : EmbeddedChunk → ℚ)
    (docs : List StoredDocument) (k : ℕ) :
    (findRelevantPages sim docs k).length = min k (pagesWithChunks docs).length := by
  unfold findRelevantPages
  rw [List.length_map, List.length_take, length_jsSort, length_pageChunkPairs]

/-- C5 (corrected): the retrieval plan's `pageLimit` is a fixed band value
(40 for high detail, 20 otherwise) independent of corpus size; the page
relevance step then returns `min pageLimit n` pages, where `n` is the
number of corpus pages owning at least one fragment — so a small corpus
bounds the number of *selected* pages while the plan's target stays at the
band value.  The original claim, that the plan's target page count equals
the corpus page count for small corpora, fails — see the counterexample. -/
theorem c5_selected_pages_count (sim : EmbeddedChunk → ℚ)
    (docs : List StoredDocument) (question : String) (prefs : LengthPreferences)
    (manual : Option ℤ) :
    (findRelevantPages sim docs
        (buildRetrievalPlan question prefs manual).pageLimit).length
      = min (buildRetrievalPlan question prefs manual).pageLimit
          (pagesWithChunks docs).length :=
  findRelevantPages_length sim docs _

/-- C5 counterexample: a high-detail query over a five-page corpus yields
`pageLimit = 40`, not 5; only the page-relevance step's output is bounded
by the corpus (it returns exactly the 5 pages). -/
theorem c5_counterexample :
    (buildRetrievalPlan "detailed analysis"
        (extractLengthPreferences "detailed analysis") none).pageLimit = 40
    ∧ (pagesWithChunks docsFive).length = 5
    ∧ (findRelevantPages simZero docsFive
        (buildRetrievalPlan "detailed analysis"
          (extractLengthPreferences "detailed analysis") none).pageLimit).length = 5
    ∧ (40 : ℕ) ≠ 5 := by
  refine ⟨by decide, by decide, ?_, by decide⟩
  rw [findRelevantPages_length]
  decide

/-! ## `scoreChunksForPart` ordering and totality (claims C6 and C7) -/

theorem scoredLe_trans (a b c : ScoredChunk)
    (hab : scoredLe a b = true) (hbc : scoredLe b c = true) :
    scoredLe a c = true := by
  simp only [scoredLe, Bool.or_eq_true, Bool.and_eq_true, decide_eq_true_eq] at *
  rcases hab with h1 | ⟨h1, h2⟩
  · rcases hbc with h3 | ⟨h3, h4⟩
    · exact Or.inl (lt_trans h3 h1)
    · exact Or.inl (h3 ▸ h1)
  · rcases hbc with h3 | ⟨h3, h4⟩
    · exact Or.inl (by rw [h1]; exact h3)
    · exact Or.inr ⟨h1.trans h3, le_trans h4 h2⟩

theorem scoredLe_total (a b : ScoredChunk) :
    scoredLe a b = true ∨ scoredLe b a = true := by
  simp only [scoredLe, Bool.or_eq_true, Bool.and_eq_true, decide_eq_true_eq]
  rcases lt_trichotomy a.exactMatches b.exactMatches with h | h | h
  · exact Or.inr (Or.inl h)
  · rcases le_total a.score b.score with hs | hs
    · exact Or.inr (Or.inr ⟨h.symm, hs⟩)
    · exact Or.inl (Or.inr ⟨h, hs⟩)
  · exact Or.inl (Or.inl h)

theorem scoreEntry_of_mem_filter {part : PartPlan} {chunks : List EmbeddedChunk}
    {e : ScoredChunk}
    (he : e ∈ (chunks.map (scoreEntry part)).filter keepScored) :
    scoreEntry part e.chunk = e ∧ e.chunk ∈ chunks := by
  have h1 := (List.mem_filter.mp he).1
  obtain ⟨c₀, hc₀, hce⟩ := List.mem_map.mp h1
  have hch : e.chunk = c₀ := by
    rw [← hce]
    rfl
  constructor
  · rw [hch]
    exact hce
  · rw [hch]
    exact hc₀

/-- C6: on every successful run, the list returned by `scoreChunksForPart`
is sorted by exact word-boundary match count descending and then by total
score descending, and contains no fragment with zero exact matches and
score at or below the 0.1 relevance floor; in particular (from the sort
order) a fragment with an exact match always precedes a fragment with only
substring matches, regardless of combined score. -/
theorem c6_scorer_order (part : PartPlan) (chunks : List EmbeddedChunk)
    (l : List EmbeddedChunk) (h : scoreChunksForPart part chunks = Except.ok l) :
    l.Pairwise (fun a b =>
      chunkExactMatches part b < chunkExactMatches part a
        ∨ (chunkExactMatches part a = chunkExactMatches part b
            ∧ chunkPartScore part b ≤ chunkPartScore part a))
    ∧ ∀ c ∈ l, (1 : ℚ)/10 < chunkPartScore part c ∨ 0 < chunkExactMatches part c := by
  unfold scoreChunksForPart at h
  by_cases hemp : chunks.isEmpty = true
  · rw [if_pos hemp] at h
    injection h with h
    subst h
    exact ⟨List.Pairwise.nil, by intro c hc; cases hc⟩
  · rw [if_neg hemp] at h
    by_cases hkw : (part.keywords.map jsToLower).all wordCharKeyword = true
    · rw [if_pos hkw] at h
      injection h with h
      subst h
      constructor
      · rw [List.pairwise_map]
        have hs := pairwise_jsSort scoredLe_trans scoredLe_total
          ((chunks.map (scoreEntry part)).filter keepScored)
        refine hs.imp_of_mem ?_
        intro e1 e2 h1 h2 hle
        have k1 := (scoreEntry_of_mem_filter (mem_jsSort.mp h1)).1
        have k2 := (scoreEntry_of_mem_filter (mem_jsSort.mp h2)).1
        simp only [scoredLe, Bool.or_eq_true, Bool.and_eq_true,
          decide_eq_true_eq] at hle
        simp only [chunkExactMatches, chunkPartScore, k1, k2]
        exact hle
      · intro c hc
        obtain ⟨e, he, hec⟩ := List.mem_map.mp hc
        have hef := List.mem_filter.mp (mem_jsSort.mp he)
        have k := (scoreEntry_of_mem_filter (mem_jsSort.mp he)).1
        have hkeep := hef.2
        simp only [keepScored, Bool.or_eq_true, decide_eq_true_eq] at hkeep
        simp only [chunkExactMatches, chunkPartScore, ← hec, k]
        exact hkeep
    · rw [if_neg hkw] at h
      cases h

set_option maxRecDepth 2000 in
/-- C6 witness: the spec's example — a fragment with two exact occurrences
of "tax" is ranked before a fragment containing "tax" only inside
"taxation", and the returned list satisfies the sortedness and floor
properties. -/
theorem c6_witness :
    scoreChunksForPart partTaxOnly [chunkTaxation, chunkExactTax]
        = Except.ok [chunkExactTax, chunkTaxation]
    ∧ ([chunkExactTax, chunkTaxation].Pairwise (fun a b =>
        chunkExactMatches partTaxOnly b < chunkExactMatches partTaxOnly a
          ∨ (chunkExactMatches partTaxOnly a = chunkExactMatches partTaxOnly b
              ∧ chunkPartScore partTaxOnly b ≤ chunkPartScore partTaxOnly a)))
    ∧ ∀ c ∈ [chunkExactTax, chunkTaxation],
        (1 : ℚ)/10 < chunkPartScore partTaxOnly c
          ∨ 0 < chunkExactMatches partTaxOnly c := by
  have h : scoreChunksForPart partTaxOnly [chunkTaxation, chunkExactTax]
      = Except.ok [chunkExactTax, chunkTaxation] := by
    unfold scoreChunksForPart
    rw [if_neg (by decide : ¬([chunkTaxation, chunkExactTax].isEmpty = true)),
      if_pos (by decide : (partTaxOnly.keywords.map jsToLower).all wordCharKeyword = true)]
    congr 1
    with_unfolding_all decide
  exact ⟨h, (c6_scorer_order partTaxOnly [chunkTaxation, chunkExactTax]
      [chunkExactTax, chunkTaxation] h).1,
    (c6_scorer_order partTaxOnly [chunkTaxation, chunkExactTax]
      [chunkExactTax, chunkTaxation] h).2⟩

/-- C7 (corrected): `scoreChunksForPart` is pure and — on parts whose
lower-cased keywords are nonempty runs of word characters, the shapes whose
interpolated `\b…\b` patterns always compile — total: it returns a ranked
list without raising.  The original claim's totality for arbitrary
regular-expression metacharacters fails: a keyword such as `c++`
interpolates to the non-compiling pattern `\bc++\b` and the scorer throws
at `RegExp` construction (determinism for fixed inputs is definitional in
this pure embedding). -/
theorem c7_scorer_total_on_word_keywords (part : PartPlan)
    (chunks : List EmbeddedChunk)
    (h : (part.keywords.map jsToLower).all wordCharKeyword = true) :
    ∃ l, scoreChunksForPart part chunks = Except.ok l := by
  unfold scoreChunksForPart
  by_cases hemp : chunks.isEmpty = true
  · exact ⟨[], by rw [if_pos hemp]⟩
  · exact ⟨_, by rw [if_neg hemp, if_pos h]⟩

/-- C7 counterexample: scoring a nonempty fragment list for a part with the
keyword `c++` raises instead of returning a list. -/
theorem c7_counterexample :
    scoreChunksForPart partCpp [chunkPlain]
      = Except.error "SyntaxError: Invalid regular expression" := by
  unfold scoreChunksForPart
  rw [if_neg (by decide : ¬([chunkPlain].isEmpty = true)),
    if_neg (by decide : ¬((partCpp.keywords.map jsToLower).all wordCharKeyword = true))]

/-- C7 witness: word-character keywords are total on a nonempty pool. -/
theorem c7_witness :
    ((partTaxOnly.keywords.map jsToLower).all wordCharKeyword = true)
    ∧ ∃ l, scoreChunksForPart partTaxOnly [chunkPlain] = Except.ok l :=
  ⟨by decide, c7_scorer_total_on_word_keywords partTaxOnly [chunkPlain] (by decide)⟩

/-! ## Budget discipline of `buildContext` (claim C2) -/

theorem pageTokenSum_append (l : List FullPage) (p : FullPage) :
    pageTokenSum (l ++ [p]) = pageTokenSum l + effPageTokens p := by
  simp [pageTokenSum]

theorem chunkTokenSum_append (l : List EmbeddedChunk) (c : EmbeddedChunk) :
    chunkTokenSum (l ++ [c]) = chunkTokenSum l + effChunkTokens c := by
  simp [chunkTokenSum]

/-- Invariant of the page-selection loop: the selected pages' token total is
the reported `pageTokensUsed`, and it never exceeds the page budget (unless
nothing was ever added). -/
theorem selectPagesGo_spec (B : ℚ) (ps : List FullPage) :
    ∀ (used : ℕ) (sel : List FullPage), pageTokenSum sel = used →
      ((used : ℚ) ≤ B ∨ used = 0) →
      pageTokenSum (selectPagesGo B ps used sel).1 = (selectPagesGo B ps used sel).2
        ∧ (((selectPagesGo B ps used sel).2 : ℚ) ≤ B
            ∨ (selectPagesGo B ps used sel).2 = 0) := by
  induction ps with
  | nil =>
    intro used sel h1 h2
    exact ⟨h1, h2⟩
  | cons p rest ih =>
    intro used sel h1 h2
    by_cases hc : B < ((used + effPageTokens p : ℕ) : ℚ)
    · have hred : selectPagesGo B (p :: rest) used sel
          = selectPagesGo B rest used sel := by
        simp only [selectPagesGo]
        rw [if_pos hc]
      rw [hred]
      exact ih used sel h1 h2
    · have hred : selectPagesGo B (p :: rest) used sel
          = selectPagesGo B rest (used + effPageTokens p) (sel ++ [p]) := by
        simp only [selectPagesGo]
        rw [if_neg hc]
      rw [hred]
      refine ih _ _ ?_ (Or.inl ?_)
      · rw [pageTokenSum_append, h1]
      · exact not_lt.mp hc

/-- Invariant of the fragment-selection loop: either the selected fragments
fit the remaining budget, or the result is a single forced fragment that
alone exceeds it. -/
theorem selectChunksGo_spec (R : ℚ) (cs : List EmbeddedChunk) :
    ∀ (used : ℕ) (sel : List EmbeddedChunk), chunkTokenSum sel = used →
      ((used : ℚ) ≤ R) →
      ((chunkTokenSum (selectChunksGo R cs used sel) : ℚ) ≤ R
        ∨ ∃ c, selectChunksGo R cs used sel = [c]
            ∧ R < (effChunkTokens c : ℚ)) := by
  induction cs with
  | nil =>
    intro used sel h1 h2
    left
    show ((chunkTokenSum sel : ℚ) ≤ R)
    rw [h1]
    exact h2
  | cons c rest ih =>
    intro used sel h1 h2
    by_cases hc : R < ((used + effChunkTokens c : ℕ) : ℚ)
    · by_cases hsel : sel.isEmpty = true
      · have hse : sel = [] := List.isEmpty_iff.mp hsel
        have hstep : selectChunksGo R (c :: rest) used sel
            = if R < ((used + effChunkTokens c : ℕ) : ℚ) then
                (if sel.isEmpty then sel ++ [c] else sel)
              else selectChunksGo R rest (used + effChunkTokens c) (sel ++ [c]) := rfl
        have hred : selectChunksGo R (c :: rest) used sel = sel ++ [c] := by
          rw [hstep, if_pos hc, if_pos hsel]
        right
        refine ⟨c, by rw [hred, hse]; rfl, ?_⟩
        have hu : used = 0 := by
          rw [hse] at h1
          simpa [chunkTokenSum] using h1.symm
        rw [hu] at hc
        simpa using hc
      · have hstep : selectChunksGo R (c :: rest) used sel
            = if R < ((used + effChunkTokens c : ℕ) : ℚ) then
                (if sel.isEmpty then sel ++ [c] else sel)
              else selectChunksGo R rest (used + effChunkTokens c) (sel ++ [c]) := rfl
        have hred : selectChunksGo R (c :: rest) used sel = sel := by
          rw [hstep, if_pos hc, if_neg hsel]
        left
        rw [hred, h1]
        exact h2
    · have hred : selectChunksGo R (c :: rest) used sel
          = selectChunksGo R rest (used + effChunkTokens c) (sel ++ [c]) := by
        have hstep : selectChunksGo R (c :: rest) used sel
            = if R < ((used + effChunkTokens c : ℕ) : ℚ) then
                (if sel.isEmpty then sel ++ [c] else sel)
              else selectChunksGo R rest (used + effChunkTokens c) (sel ++ [c]) := rfl
        rw [hstep, if_neg hc]
      rw [hred]
      refine ih _ _ ?_ ?_
      · rw [chunkTokenSum_append, h1]
      · exact not_lt.mp hc

/-- The fragment-selection loop never discards everything: if it starts from
a nonempty candidate list (or nonempty accumulator) its result is nonempty,
so the source's post-loop `selectedChunks.length === 0` fallback is
unreachable whenever candidates exist. -/
theorem selectChunksGo_ne_nil (R : ℚ) (cs : List EmbeddedChunk) :
    ∀ (used : ℕ) (sel : List EmbeddedChunk), (cs ≠ [] ∨ sel ≠ []) →
      selectChunksGo R cs used sel ≠ [] := by
  induction cs with
  | nil =>
    intro used sel h
    rcases h with h | h
    · exact absurd rfl h
    · exact h
  | cons c rest ih =>
    intro used sel h
    by_cases hc : R < ((used + effChunkTokens c : ℕ) : ℚ)
    · by_cases hsel : sel.isEmpty = true
      · have hstep : selectChunksGo R (c :: rest) used sel
            = if R < ((used + effChunkTokens c : ℕ) : ℚ) then
                (if sel.isEmpty then sel ++ [c] else sel)
              else selectChunksGo R rest (used + effChunkTokens c) (sel ++ [c]) := rfl
        have hred : selectChunksGo R (c :: rest) used sel = sel ++ [c] := by
          rw [hstep, if_pos hc, if_pos hsel]
        rw [hred]
        simp
      · have hstep : selectChunksGo R (c :: rest) used sel
            = if R < ((used + effChunkTokens c : ℕ) : ℚ) then
                (if sel.isEmpty then sel ++ [c] else sel)
              else selectChunksGo R rest (used + effChunkTokens c) (sel ++ [c]) := rfl
        have hred : selectChunksGo R (c :: rest) used sel = sel := by
          rw [hstep, if_pos hc, if_neg hsel]
        rw [hred]
        intro he
        rw [he] at hsel
        exact hsel rfl
    · have hred : selectChunksGo R (c :: rest) used sel
          = selectChunksGo R rest (used + effChunkTokens c) (sel ++ [c]) := by
        have hstep : selectChunksGo R (c :: rest) used sel
            = if R < ((used + effChunkTokens c : ℕ) : ℚ) then
                (if sel.isEmpty then sel ++ [c] else sel)
              else selectChunksGo R rest (used + effChunkTokens c) (sel ++ [c]) := rfl
        rw [hstep, if_neg hc]
      rw [hred]
      exact ih _ _ (Or.inr (by simp))

/-- C2 (corrected): whenever the token budget is at least 2667 — so that
`remainingBudget = max(tokenBudget - pageTokens, 2000)` cannot be lifted
above the true remainder by the 2000-token floor — `buildContext` keeps the
selected pages' plus fragments' token total within the budget, except in
the single forced-inclusion case where exactly one fragment is returned
because even the first candidate alone exceeds the remaining fragment
budget.  The original unconditional claim fails for budgets below 2667:
the floor then admits up to 2000 fragment tokens regardless of the
budget. -/
theorem c2_buildContext_budget (chunks : List EmbeddedChunk)
    (pages : List FullPage) (b : ℚ) (hb : (2667 : ℚ) ≤ b) :
    ((pageTokenSum (buildContext chunks pages b).pages : ℚ)
        + (chunkTokenSum (buildContext chunks pages b).chunks : ℚ) ≤ b)
    ∨ (∃ c, (buildContext chunks pages b).chunks = [c]
        ∧ max (b - (pageTokenSum (buildContext chunks pages b).pages : ℚ)) 2000
            < (effChunkTokens c : ℚ)) := by
  have hpages : (buildContext chunks pages b).pages = (contextPageSel pages b).1 := rfl
  have hchk : (buildContext chunks pages b).chunks = contextChunksFinal chunks pages b := rfl
  have hps := selectPagesGo_spec (pageBudgetOf b) pages 0 [] rfl (Or.inr rfl)
  have hpsum : pageTokenSum (contextPageSel pages b).1 = (contextPageSel pages b).2 :=
    hps.1
  have hPB : pageBudgetOf b ≤ b / 4 := by
    unfold pageBudgetOf
    refine le_trans (min_le_left _ _) ?_
    calc ((⌊b * (1/4)⌋ : ℤ) : ℚ) ≤ b * (1/4) := Int.floor_le _
      _ = b / 4 := by ring
  have hple : ((contextPageSel pages b).2 : ℚ) ≤ b / 4 := by
    rcases hps.2 with h | h
    · exact le_trans h hPB
    · have h' : (contextPageSel pages b).2 = 0 := h
      rw [h']
      push_cast
      linarith
  have hrem : contextRemaining pages b = b - ((contextPageSel pages b).2 : ℚ) := by
    unfold contextRemaining
    refine max_eq_left ?_
    linarith
  have hcs := selectChunksGo_spec (contextRemaining pages b)
    (contextPrioritized chunks) 0 [] rfl
    (by unfold contextRemaining; push_cast; exact le_trans (by norm_num) (le_max_right _ _))
  cases hpr : contextPrioritized chunks with
  | nil =>
    have hsel : contextChunkSel chunks pages b = [] := by
      unfold contextChunkSel
      rw [hpr]
      rfl
    have hfin : contextChunksFinal chunks pages b = [] := by
      unfold contextChunksFinal
      rw [hpr, hsel]
    left
    rw [hchk, hfin, hpages]
    have hz : chunkTokenSum ([] : List EmbeddedChunk) = 0 := rfl
    rw [hz, hpsum]
    push_cast
    linarith
  | cons c0 tl =>
    have hne : contextChunkSel chunks pages b ≠ [] := by
      unfold contextChunkSel
      rw [hpr]
      exact selectChunksGo_ne_nil _ _ 0 [] (Or.inl (by simp))
    have hie : (contextChunkSel chunks pages b).isEmpty = false := by
      cases hx : (contextChunkSel chunks pages b).isEmpty
      · rfl
      · exact absurd (List.isEmpty_iff.mp hx) hne
    have hfin : contextChunksFinal chunks pages b = contextChunkSel chunks pages b := by
      unfold contextChunksFinal
      rw [hpr, hie]
    rcases hcs with h | ⟨c, hc, hlt⟩
    · left
      have h' : (chunkTokenSum (contextChunkSel chunks pages b) : ℚ)
          ≤ contextRemaining pages b := h
      rw [hrem] at h'
      rw [hchk, hfin, hpages, hpsum]
      linarith
    · right
      refine ⟨c, ?_, ?_⟩
      · rw [hchk, hfin]
        exact hc
      · rw [hpages, hpsum]
        exact hlt

set_option maxRecDepth 4000 in
/-- C2 counterexample: with a 100-token budget and two 150-token fragments,
the 2000-token floor on the remaining fragment budget admits both, so the
selection totals 300 tokens on a 100-token budget while being neither
within budget nor a forced single fragment. -/
theorem c2_counterexample :
    ¬(((pageTokenSum (buildContext [chunkBudget1, chunkBudget2] [] 100).pages : ℚ)
        + (chunkTokenSum (buildContext [chunkBudget1, chunkBudget2] [] 100).chunks : ℚ)
          ≤ 100)
      ∨ (∃ c, (buildContext [chunkBudget1, chunkBudget2] [] 100).chunks = [c]
          ∧ max ((100 : ℚ)
                - (pageTokenSum (buildContext [chunkBudget1, chunkBudget2] [] 100).pages : ℚ))
              2000
              < (effChunkTokens c : ℚ))) := by
  have hch : (buildContext [chunkBudget1, chunkBudget2] [] 100).chunks
      = [chunkBudget1, chunkBudget2] := by
    show contextChunksFinal [chunkBudget1, chunkBudget2] [] 100
      = [chunkBudget1, chunkBudget2]
    with_unfolding_all decide
  have hpg : (buildContext [chunkBudget1, chunkBudget2] [] 100).pages = [] := rfl
  intro hclaim
  rcases hclaim with hle | ⟨c, hc, -⟩
  · rw [hch, hpg] at hle
    have h1 : pageTokenSum ([] : List FullPage) = 0 := rfl
    have h2 : chunkTokenSum [chunkBudget1, chunkBudget2] = 300 := by decide
    rw [h1, h2] at hle
    norm_num at hle
  · rw [hch] at hc
    simp at hc

/-- C2 witness: the corrected budget bound instantiated at the empty corpus
with an 8000-token budget. -/
theorem c2_witness :
    ((2667 : ℚ) ≤ 8000)
    ∧ (((pageTokenSum (buildContext [] [] 8000).pages : ℚ)
        + (chunkTokenSum (buildContext [] [] 8000).chunks : ℚ) ≤ 8000)
      ∨ (∃ c, (buildContext [] [] 8000).chunks = [c]
          ∧ max ((8000 : ℚ) - (pageTokenSum (buildContext [] [] 8000).pages : ℚ)) 2000
              < (effChunkTokens c : ℚ))) :=
  ⟨by norm_num, c2_buildContext_budget [] [] 8000 (by norm_num)⟩

/-! ## Provenance of part-specific retrieval (claim C3) -/

/-- Every item distributed by the `ensurePerDocument` pass into `primary`
or `secondary` comes from the input list. -/
theorem ensureDocGo_mem (l : List (EmbeddedChunk × ℚ)) :
    ∀ (seen : List String) (x : EmbeddedChunk × ℚ),
      x ∈ (ensureDocGo l seen).1 ++ (ensureDocGo l seen).2 → x ∈ l := by
  induction l with
  | nil =>
    intro seen x hx
    simp [ensureDocGo] at hx
  | cons item rest ih =>
    intro seen x hx
    have hstep : ensureDocGo (item :: rest) seen
        = if seen.contains item.1.metadata.filename then
            ((ensureDocGo rest seen).1, item :: (ensureDocGo rest seen).2)
          else
            (item :: (ensureDocGo rest (item.1.metadata.filename :: seen)).1,
              (ensureDocGo rest (item.1.metadata.filename :: seen)).2) := rfl
    rw [hstep] at hx
    by_cases hc : seen.contains item.1.metadata.filename = true
    · rw [if_pos hc] at hx
      rcases List.mem_append.mp hx with h | h
      · exact List.mem_cons_of_mem _ (ih seen x (List.mem_append.mpr (Or.inl h)))
      · rcases List.mem_cons.mp h with rfl | h
        · exact List.mem_cons_self _ _
        · exact List.mem_cons_of_mem _ (ih seen x (List.mem_append.mpr (Or.inr h)))
    · rw [if_neg hc] at hx
      rcases List.mem_append.mp hx with h | h
      · rcases List.mem_cons.mp h with rfl | h
        · exact List.mem_cons_self _ _
        · exact List.mem_cons_of_mem _ (ih _ x (List.mem_append.mpr (Or.inl h)))
      · exact List.mem_cons_of_mem _ (ih _ x (List.mem_append.mpr (Or.inr h)))

/-- `searchSimilar` only returns fragments of the corpus — of any document,
with no restriction to any page selection. -/
theorem searchSimilar_subset (sim : EmbeddedChunk → ℚ) (docs : List StoredDocument)
    (topK : ℕ) (e : Bool) (m : Option ℚ) :
    ∀ c ∈ searchSimilar sim docs topK e m, c ∈ allChunksOf docs := by
  intro c hc
  simp only [searchSimilar] at hc
  split at hc
  · simp at hc
  · split at hc
    · simp at hc
    · obtain ⟨it, hit, heq⟩ := List.mem_map.mp (List.mem_of_mem_take hc)
      have hpool : it ∈ searchPool sim docs m := by
        split at hit
        · exact ensureDocGo_mem _ [] it hit
        · exact hit
      have h3 := mem_jsSort.mp hpool
      have h4 := (List.mem_filter.mp h3).1
      obtain ⟨c₀, hc₀, hce⟩ := List.mem_map.mp h4
      rw [← heq, ← hce]
      exact hc₀

/-- The merged fragment pool is contained in the concatenation of its two
inputs. -/
theorem mergeChunks_subset (a b : List EmbeddedChunk) :
    ∀ c ∈ mergeChunks a b, c ∈ a ++ b := fun _ hc =>
  (mergeDedupGo_sublist (a ++ b) []).subset hc

/-- A successfully scored list only contains fragments of the scored pool. -/
theorem scoreChunksForPart_subset (part : PartPlan)
    (chunks l : List EmbeddedChunk)
    (h : scoreChunksForPart part chunks = Except.ok l) :
    ∀ c ∈ l, c ∈ chunks := by
  intro c hc
  unfold scoreChunksForPart at h
  by_cases hemp : chunks.isEmpty = true
  · rw [if_pos hemp] at h
    injection h with h'
    rw [← h'] at hc
    simp at hc
  · rw [if_neg hemp] at h
    by_cases hkw : (part.keywords.map jsToLower).all wordCharKeyword = true
    · rw [if_pos hkw] at h
      injection h with h'
      rw [← h'] at hc
      obtain ⟨it, hit, hitc⟩ := List.mem_map.mp hc
      have h3 := scoreEntry_of_mem_filter (mem_jsSort.mp hit)
      rw [← hitc]
      exact h3.2
    · rw [if_neg hkw] at h
      exact Except.noConfusion h

/-- C3 (corrected): the part-specific retrieval pool is corpus-wide.  Every
fragment in a part's successfully ranked list comes either from the base
fragment set handed to `generatePart` or from `searchSimilar` over the
whole corpus — the part-specific search is *not* restricted to fragments
of the selected base pages (the source calls `searchSimilar`, never
`searchSimilarInPages`, for the composite part query). -/
theorem c3_part_retrieval_pool (sim : EmbeddedChunk → ℚ)
    (docs : List StoredDocument) (baseChunks : List EmbeddedChunk)
    (part : PartPlan) (rp : RetrievalPlan) (l : List EmbeddedChunk)
    (h : rankedChunksForPart sim docs baseChunks part rp = Except.ok l) :
    ∀ c ∈ l, c ∈ baseChunks ∨ c ∈ allChunksOf docs := by
  intro c hc
  simp only [rankedChunksForPart] at h
  cases hsc : scoreChunksForPart part (mergeChunks baseChunks
      (searchSimilar sim docs (max 40 (rp.chunkLimit / 2)) true none)) with
  | error e =>
    rw [hsc] at h
    exact Except.noConfusion h
  | ok l₀ =>
    rw [hsc] at h
    simp only [Except.map] at h
    injection h with h'
    rw [← h'] at hc
    have hmem : c ∈ l₀ := List.mem_of_mem_take hc
    have h2 := scoreChunksForPart_subset part _ l₀ hsc c hmem
    rcases List.mem_append.mp (mergeChunks_subset _ _ c h2) with hb | ha
    · exact Or.inl hb
    · exact Or.inr (searchSimilar_subset sim docs _ true none c ha)

/-- C3 counterexample: for the question `how is tax handled` over a corpus
of a one-page pdf and a pageless docx, the part-ranked list contains the
docx fragment, whose (filename, page number) matches none of the pages
chosen in the page-relevance step — retrieval is not restricted to the
selected base pages. -/
theorem c3_counterexample :
    ∃ l, rankedChunksForPart simZero docsMixed
        (searchSimilar simZero docsMixed
          (buildRetrievalPlan "how is tax handled"
            (extractLengthPreferences "how is tax handled") none).chunkLimit
          true none)
        partTax
        (buildRetrievalPlan "how is tax handled"
          (extractLengthPreferences "how is tax handled") none) = Except.ok l
      ∧ ∃ c ∈ l,
          ∀ p ∈ findRelevantPages simZero docsMixed
              (buildRetrievalPlan "how is tax handled"
                (extractLengthPreferences "how is tax handled") none).pageLimit,
            ¬(p.filename = c.metadata.filename
              ∧ p.pageNumber = c.metadata.sectionNumber) := by
  have hcl : (buildRetrievalPlan "how is tax handled"
      (extractLengthPreferences "how is tax handled") none).chunkLimit = 280 := by
    decide
  have hpl : (buildRetrievalPlan "how is tax handled"
      (extractLengthPreferences "how is tax handled") none).pageLimit = 40 := by
    decide
  have hbase : searchSimilar simZero docsMixed 280 true none
      = [chunkA, chunkB] := by
    with_unfolding_all decide
  have hadd : searchSimilar simZero docsMixed (max 40 (280 / 2)) true none
      = [chunkA, chunkB] := by
    with_unfolding_all decide
  have hmerge : mergeChunks [chunkA, chunkB] [chunkA, chunkB]
      = [chunkA, chunkB] := by
    decide
  have hscore : scoreChunksForPart partTax [chunkA, chunkB]
      = Except.ok [chunkB] := by
    unfold scoreChunksForPart
    rw [if_neg (by decide : ¬([chunkA, chunkB].isEmpty = true)),
      if_pos (by decide :
        (partTax.keywords.map jsToLower).all wordCharKeyword = true)]
    congr 1
    with_unfolding_all decide
  have hpages : findRelevantPages simZero docsMixed 40 = [pageA1] := by
    with_unfolding_all decide
  refine ⟨[chunkB], ?_, chunkB, by simp, ?_⟩
  · simp only [rankedChunksForPart]
    rw [hcl, hbase, hadd, hmerge, hscore]
    rfl
  · rw [hpl, hpages]
    intro p hp
    rw [List.mem_singleton] at hp
    subst hp
    decide

/-- C3 witness: the provenance bound instantiated at the empty corpus. -/
theorem c3_witness :
    (rankedChunksForPart simZero [] [] partTax ⟨1, 1, 8000⟩ = Except.ok [])
    ∧ ∀ c ∈ ([] : List EmbeddedChunk),
        c ∈ ([] : List EmbeddedChunk) ∨ c ∈ allChunksOf [] :=
  ⟨rfl, c3_part_retrieval_pool simZero [] [] partTax ⟨1, 1, 8000⟩ [] rfl⟩

end RagModel
